import Mathlib

/-!
Verification of the FON.net repository (FastObjectNotation): a line-oriented
typed serialization format with a padded Z85 binary codec and a parallel
file orchestrator.  This file shallowly embeds the C++ sources
(`src/FON.Native/include/fon.hpp`, `src/FON.Native/include/fon_types.hpp`,
`src/FON.Native/src/raw_data.cpp`) as executable Lean definitions and proves
properties of them.

Modelling conventions:
* bytes (`uint8_t`) are `Nat` with the bound `< 256` carried as a hypothesis
  where it matters (`vector<uint8_t>` guarantees it in the source);
* `uint32_t` arithmetic carries an explicit `% 2^32`;
* `std::string` / `std::string_view` are `List Char`;
* fallible code returns `Except String`; a C++ method that mutates `*this`
  and can throw is modelled as a function returning the state at normal or
  exceptional exit together with an optional error.
-/

namespace FonSpec

/-- One raw blob (`class RawData`, fon_types.hpp:63-81): exactly the two
private fields `data_ : vector<uint8_t>` and `encoded_ : string`. -/
structure RawData where
  data : List Nat
  encoded : List Char
deriving DecidableEq, Repr

/-- The Z85 alphabet string (raw_data.cpp:8-9). -/
def z85_encode : List Char :=
  ("0123456789abcdefghijklmnopqrstuvwxyzABCDEFGHIJKLMNOPQRSTUVWXYZ.-:+=^!/*?&<>()[]{}@%$#").data

/-- The Z85 decode table for ASCII 32..127, 255 = invalid (raw_data.cpp:12-19). -/
def z85_decode : List Nat :=
  [255, 68, 255, 84, 83, 82, 72, 255, 75, 76, 70, 65, 255, 63, 62, 69,
   0, 1, 2, 3, 4, 5, 6, 7, 8, 9, 64, 255, 73, 66, 74, 71,
   81, 36, 37, 38, 39, 40, 41, 42, 43, 44, 45, 46, 47, 48, 49, 50,
   51, 52, 53, 54, 55, 56, 57, 58, 59, 60, 61, 77, 255, 78, 67, 255,
   255, 10, 11, 12, 13, 14, 15, 16, 17, 18, 19, 20, 21, 22, 23, 24,
   25, 26, 27, 28, 29, 30, 31, 32, 33, 34, 35, 79, 255, 80, 255, 255]

/-- Look up one alphabet character, `z85_encode[i]` (raw_data.cpp:49-53). -/
def z85Char (i : Nat) : Char := z85_encode.getD i '?'

/-- Decode one character as in the unpack loop (raw_data.cpp:112-119):
characters outside 32..127 and table entries 255 are fatal. -/
def z85Dec (c : Char) : Except String Nat :=
  if c.toNat < 32 ∨ 127 < c.toNat then .error "Invalid Z85 character"
  else
    let d := z85_decode.getD (c.toNat - 32) 255
    if d = 255 then .error "Invalid Z85 character" else .ok d

/-- Big-endian word of four bytes (raw_data.cpp:44-47); for bytes < 256 the
source's shift-or on disjoint bit ranges equals this arithmetic form. -/
def wordOfBytes4 (b0 b1 b2 b3 : Nat) : Nat :=
  ((b0 * 256 + b1) * 256 + b2) * 256 + b3

/-- The five characters written for one 32-bit word (raw_data.cpp:49-53 and
71-75): the source computes the digits by repeated division by 85, writing
the least significant digit rightmost; the leftmost character indexes the
table with the value remaining after four divisions. -/
def encodeWord (v : Nat) : List Char :=
  let c4 := z85Char (v % 85)
  let v1 := v / 85
  let c3 := z85Char (v1 % 85)
  let v2 := v1 / 85
  let c2 := z85Char (v2 % 85)
  let v3 := v2 / 85
  let c1 := z85Char (v3 % 85)
  let v4 := v3 / 85
  let c0 := z85Char v4
  [c0, c1, c2, c3, c4]

/-- The sequence of 32-bit words encoded by `RawData::pack` (raw_data.cpp:40-76):
full 4-byte blocks, then the final 1-3 remaining bytes left-shifted so that
the padding bytes are zero. -/
def chunkWords : List Nat → List Nat
  | [] => []
  | [b0] => [b0 * 256 * 256 * 256]
  | [b0, b1] => [(b0 * 256 + b1) * 256 * 256]
  | [b0, b1, b2] => [((b0 * 256 + b1) * 256 + b2) * 256]
  | b0 :: b1 :: b2 :: b3 :: rest => wordOfBytes4 b0 b1 b2 b3 :: chunkWords rest

/-- The text produced by `RawData::pack` for a byte sequence
(raw_data.cpp:27-80): each word becomes five characters; when the length is
not a multiple of 4 one extra marker character `'0' + padding` is appended. -/
def packBytes (bs : List Nat) : List Char :=
  (chunkWords bs).flatMap encodeWord ++
    (if bs.length % 4 = 0 then [] else [Char.ofNat (48 + (4 - bs.length % 4))])

/-- `RawData::pack` (raw_data.cpp:22-84): a no-op when the encoded form is
already present or the byte form is empty; otherwise encodes and clears the
byte form.  `pack` never throws. -/
def RawData.pack (x : RawData) : RawData :=
  if x.encoded ≠ [] ∨ x.data = [] then x
  else { data := [], encoded := packBytes x.data }

/-- The four bytes the unpack loop extracts from one word (raw_data.cpp:123-126). -/
def bytesOfWord (v : Nat) : List Nat :=
  [v / (256 * 256 * 256) % 256, v / (256 * 256) % 256, v / 256 % 256, v % 256]

/-- One conditional byte store `if (write_pos < output_len) data_[write_pos++] = b`
(raw_data.cpp:123-126). -/
def writeByte (st : List Nat × Nat) (outLen b : Nat) : List Nat × Nat :=
  if st.2 < outLen then (st.1.set st.2 b, st.2 + 1) else st

/-- The four conditional byte stores for one decoded word (raw_data.cpp:123-126). -/
def writeWord (st : List Nat × Nat) (outLen v : Nat) : List Nat × Nat :=
  ((bytesOfWord v).foldl (fun s b => writeByte s outLen b) st)

/-- Decode the five characters of the group starting at index `i`
(raw_data.cpp:110-121).  The accumulator is `uint32_t`, hence the `% 2^32`.
An index past the stored string reads the terminator byte (out of range in
the source); it is modelled as the NUL character, which is rejected. -/
def decodeGroup (enc : List Char) (i : Nat) : Except String Nat := do
  let d0 ← z85Dec (enc.getD (i + 0) (Char.ofNat 0))
  let d1 ← z85Dec (enc.getD (i + 1) (Char.ofNat 0))
  let d2 ← z85Dec (enc.getD (i + 2) (Char.ofNat 0))
  let d3 ← z85Dec (enc.getD (i + 3) (Char.ofNat 0))
  let d4 ← z85Dec (enc.getD (i + 4) (Char.ofNat 0))
  let v0 := (0 * 85 + d0) % 4294967296
  let v1 := (v0 * 85 + d1) % 4294967296
  let v2 := (v1 * 85 + d2) % 4294967296
  let v3 := (v2 * 85 + d3) % 4294967296
  let v4 := (v3 * 85 + d4) % 4294967296
  pure v4

/-- The unpack group loop `for (i = 0; i < len; i += 5)` (raw_data.cpp:109-127),
run with fuel (the loop advances `i` by 5 each round, so `len` rounds more
than suffice).  Returns the byte buffer at normal or exceptional exit and
the error, if any. -/
def decodeFrom (enc : List Char) (len outLen : Nat) :
    Nat → Nat → List Nat → Nat → List Nat × Option String
  | _, _, data, 0 => (data, none)
  | i, wp, data, fuel + 1 =>
    if i < len then
      match decodeGroup enc i with
      | .error e => (data, some e)
      | .ok v =>
        let st := writeWord (data, wp) outLen v
        decodeFrom enc len outLen (i + 5) st.2 st.1 fuel
    else (data, none)

/-- `RawData::unpack` (raw_data.cpp:87-131) including the state at the point
an exception leaves the method: the no-op guard; marker detection on the last
character; `output_len = (len/5)*4 - padding` in `size_t`, whose wrap-around
makes `resize` throw (state unchanged, strong guarantee); the zero-filling
`resize`; then the decode loop, which on an invalid character throws with the
bytes written so far retained and the encoded form not yet cleared. -/
def RawData.unpackRun (x : RawData) : RawData × Option String :=
  if x.data ≠ [] ∨ x.encoded = [] then (x, none)
  else
    let sz := x.encoded.length
    let lastC := x.encoded.getLastD (Char.ofNat 0)
    let hasMarker := 49 ≤ lastC.toNat ∧ lastC.toNat ≤ 51
    let padding := if hasMarker then lastC.toNat - 48 else 0
    let len := if hasMarker then sz - 1 else sz
    if (len / 5) * 4 < padding then (x, some "length_error")
    else
      let outLen := (len / 5) * 4 - padding
      match decodeFrom x.encoded len outLen 0 0 (List.replicate outLen 0) len with
      | (d, some e) => ({ data := d, encoded := x.encoded }, some e)
      | (d, none) => ({ data := d, encoded := [] }, none)

/-- `RawData::unpack` as observed by a caller: the new state on normal return,
or the propagated exception. -/
def RawData.unpack (x : RawData) : Except String RawData :=
  match x.unpackRun with
  | (s, none) => .ok s
  | (_, some e) => .error e

-- ==================== VALUE MODEL (fon_types.hpp) ====================

/-- The type-tag characters (fon_types.hpp:45-55). -/
def TYPE_BYTE : Char := 'e'

def TYPE_SHORT : Char := 't'

def TYPE_INT : Char := 'i'

def TYPE_UINT : Char := 'u'

def TYPE_LONG : Char := 'l'

def TYPE_ULONG : Char := 'g'

def TYPE_FLOAT : Char := 'f'

def TYPE_DOUBLE : Char := 'd'

def TYPE_BOOL : Char := 'b'

def TYPE_STRING : Char := 's'

def TYPE_RAW : Char := 'r'

/-- The variant `FonValue` (fon_types.hpp:20-42).  Integer variants carry
their mathematical value (widths are enforced at the parse boundary, as the
`std::from_chars` range checks do in the source).  `float` and `double`
variants carry the exact wire token instead of an IEEE value: the bit-level
float semantics of `to_chars`/`from_chars` is not modelled, and no theorem
below depends on it.  The `shared_ptr<RawData>` variant is modelled by value
(aliasing is immaterial to the properties proved here). -/
inductive FonValue where
  | vByte (v : Nat)
  | vShort (v : Int)
  | vInt (v : Int)
  | vUInt (v : Nat)
  | vLong (v : Int)
  | vULong (v : Nat)
  | vFloatTok (t : List Char)
  | vDoubleTok (t : List Char)
  | vBool (b : Bool)
  | vString (s : List Char)
  | vRaw (r : RawData)
  | vByteArr (vs : List Nat)
  | vShortArr (vs : List Int)
  | vIntArr (vs : List Int)
  | vUIntArr (vs : List Nat)
  | vLongArr (vs : List Int)
  | vULongArr (vs : List Nat)
  | vFloatArr (ts : List (List Char))
  | vDoubleArr (ts : List (List Char))
  | vBoolArr (vs : List Bool)
  | vStringArr (vs : List (List Char))
deriving DecidableEq, Repr

/-- A `FonCollection` (fon_types.hpp:88-125): a string-keyed map, modelled as
an association list in iteration order; keys are unique. -/
abbrev Collection := List (List Char × FonValue)

/-- `FonCollection::add` (fon_types.hpp:92-94): `data_[key] = value`
replaces an existing key in place, otherwise inserts. -/
def colAdd (col : Collection) (key : List Char) (v : FonValue) : Collection :=
  if col.any (fun p => p.1 == key) then
    col.map (fun p => if p.1 == key then (key, v) else p)
  else col ++ [(key, v)]

-- ==================== SERIALIZATION (fon.hpp) ====================

/-- `Fon::get_type_char` (fon.hpp:263-289). -/
def get_type_char : FonValue → Char
  | .vByte _ => TYPE_BYTE
  | .vShort _ => TYPE_SHORT
  | .vInt _ => TYPE_INT
  | .vUInt _ => TYPE_UINT
  | .vLong _ => TYPE_LONG
  | .vULong _ => TYPE_ULONG
  | .vFloatTok _ => TYPE_FLOAT
  | .vDoubleTok _ => TYPE_DOUBLE
  | .vBool _ => TYPE_BOOL
  | .vString _ => TYPE_STRING
  | .vRaw _ => TYPE_RAW
  | .vByteArr _ => TYPE_BYTE
  | .vShortArr _ => TYPE_SHORT
  | .vIntArr _ => TYPE_INT
  | .vUIntArr _ => TYPE_UINT
  | .vLongArr _ => TYPE_LONG
  | .vULongArr _ => TYPE_ULONG
  | .vFloatArr _ => TYPE_FLOAT
  | .vDoubleArr _ => TYPE_DOUBLE
  | .vBoolArr _ => TYPE_BOOL
  | .vStringArr _ => TYPE_STRING

/-- Decimal text of an unsigned integer, `std::to_chars` (fon.hpp:216-221). -/
def serialize_number_nat (n : Nat) : List Char := (toString n).data

/-- Decimal text of a signed integer, `std::to_chars` (fon.hpp:216-221). -/
def serialize_number_int (i : Int) : List Char := (toString i).data

/-- The uppercase hexadecimal digit used by the `\u%04X` escape (fon.hpp:251). -/
def hexUpper (n : Nat) : Char := ("0123456789ABCDEF").data.getD n '?'

/-- The expansion of one character inside a quoted string, the switch of
`Fon::serialize_string` (fon.hpp:239-256). -/
def escapeChar (c : Char) : List Char :=
  if c = '"' then ['\\', '"']
  else if c = '\\' then ['\\', '\\']
  else if c = Char.ofNat 10 then ['\\', 'n']
  else if c = Char.ofNat 13 then ['\\', 'r']
  else if c = Char.ofNat 9 then ['\\', 't']
  else if c = Char.ofNat 8 then ['\\', 'b']
  else if c = Char.ofNat 12 then ['\\', 'f']
  else if c.toNat < 32 then
    ['\\', 'u', '0', '0', hexUpper (c.toNat / 16), hexUpper (c.toNat % 16)]
  else [c]

/-- `Fon::serialize_string` (fon.hpp:237-259). -/
def serialize_string (s : List Char) : List Char :=
  '"' :: (s.flatMap escapeChar ++ ['"'])

/-- `Fon::serialize_array` (fon.hpp:226-233): elements joined by commas
inside brackets. -/
def serialize_array (elems : List (List Char)) : List Char :=
  '[' :: (List.intercalate [','] elems ++ [']'])

/-- `Fon::serialize_value` (fon.hpp:146-212). -/
def serialize_value : FonValue → List Char
  | .vByte v => serialize_number_nat v
  | .vShort v => serialize_number_int v
  | .vInt v => serialize_number_int v
  | .vUInt v => serialize_number_nat v
  | .vLong v => serialize_number_int v
  | .vULong v => serialize_number_nat v
  | .vFloatTok t => t
  | .vDoubleTok t => t
  | .vBool b => [if b then '1' else '0']
  | .vString s => serialize_string s
  | .vRaw r => '"' :: ((RawData.pack r).encoded ++ ['"'])
  | .vByteArr vs => serialize_array (vs.map serialize_number_nat)
  | .vShortArr vs => serialize_array (vs.map serialize_number_int)
  | .vIntArr vs => serialize_array (vs.map serialize_number_int)
  | .vUIntArr vs => serialize_array (vs.map serialize_number_nat)
  | .vLongArr vs => serialize_array (vs.map serialize_number_int)
  | .vULongArr vs => serialize_array (vs.map serialize_number_nat)
  | .vFloatArr ts => serialize_array ts
  | .vDoubleArr ts => serialize_array ts
  | .vBoolArr vs => serialize_array (vs.map (fun b => [if b then '1' else '0']))
  | .vStringArr vs => serialize_array (vs.map serialize_string)

/-- `Fon::serialize_to_string` (fon.hpp:125-142): `key=tag:value` entries
joined by commas, in the collection's iteration order. -/
def serialize_to_string (col : Collection) : List Char :=
  List.intercalate [','] (col.map (fun p =>
    p.1 ++ ('=' :: get_type_char p.2 :: ':' :: serialize_value p.2)))

-- ==================== PARSING (fon.hpp) ====================

/-- `Fon::find_value_end` (fon.hpp:576-584): index of the first `,`, `]`,
CR or LF, or the length when none occurs. -/
def find_value_end : List Char → Nat
  | [] => 0
  | c :: rest =>
    if c = ',' ∨ c = ']' ∨ c = Char.ofNat 13 ∨ c = Char.ofNat 10 then 0
    else 1 + find_value_end rest

/-- Index of the first occurrence of a character in a list, if any. -/
def findCharIdx (c : Char) : List Char → Option Nat
  | [] => none
  | x :: rest => if x = c then some 0 else (findCharIdx c rest).map (· + 1)

/-- `line.find(c, pos)` of `std::string_view` (fon.hpp:385). -/
def findFrom (line : List Char) (c : Char) (pos : Nat) : Option Nat :=
  (findCharIdx c (line.drop pos)).map (pos + ·)

/-- The loop of `Fon::find_closing_bracket` (fon.hpp:588-607): a depth
counter over brackets, suspended inside quoted substrings; the quote state
toggles on a `"` whose predecessor is not a backslash. -/
def findCloseGo (data : List Char) (depth : Int) (inStr : Bool) (prev : Option Char)
    (idx : Nat) : List Char → Except String Nat
  | [] => .error "Closing bracket not found"
  | c :: rest =>
    if c = '"' ∧ prev ≠ some '\\' then
      findCloseGo data depth (!inStr) (some c) (idx + 1) rest
    else if inStr = false ∧ c = '[' then
      findCloseGo data (depth + 1) inStr (some c) (idx + 1) rest
    else if inStr = false ∧ c = ']' then
      if depth - 1 = 0 then .ok idx
      else findCloseGo data (depth - 1) inStr (some c) (idx + 1) rest
    else findCloseGo data depth inStr (some c) (idx + 1) rest

/-- `Fon::find_closing_bracket` (fon.hpp:588-607). -/
def find_closing_bracket (data : List Char) : Except String Nat :=
  findCloseGo data 0 false none 0 data

/-- The scan of `Fon::parse_string` for the closing quote (fon.hpp:532-538):
advance while the current character is not a `"` whose immediate predecessor
is not a backslash; stops at the length when no such quote exists.  Run with
fuel: the loop advances by one per round, so the length of the data bounds
the rounds from start position 1. -/
def quoteScan (data : List Char) : Nat → Nat → Nat
  | q, 0 => q
  | q, fuel + 1 =>
    if q < data.length then
      if data.getD q (Char.ofNat 0) = '"' ∧ data.getD (q - 1) (Char.ofNat 0) ≠ '\\' then q
      else quoteScan data (q + 1) fuel
    else q

/-- The replacement for one escaped character in the unescape loop of
`Fon::parse_string` (fon.hpp:554-563); an unknown escape yields the
character itself. -/
def unescChar (c : Char) : Char :=
  if c = '"' then '"'
  else if c = '\\' then '\\'
  else if c = 'n' then Char.ofNat 10
  else if c = 'r' then Char.ofNat 13
  else if c = 't' then Char.ofNat 9
  else if c = 'b' then Char.ofNat 8
  else if c = 'f' then Char.ofNat 12
  else c

/-- The unescape loop of `Fon::parse_string` (fon.hpp:548-567): a backslash
followed by another character consumes both; a trailing lone backslash (no
following character, the `i + 1 < content.size()` guard) is copied
verbatim. -/
def unescapeList : List Char → List Char
  | [] => []
  | c :: rest =>
    if c = '\\' then
      match rest with
      | [] => ['\\']
      | c2 :: rest2 => unescChar c2 :: unescapeList rest2
    else c :: unescapeList rest

/-- The quote scan re-expressed on the suffix being scanned with the
character preceding it: the distance to the first `"` whose predecessor is
not a backslash.  Used to relate `quoteScan` to the structure of escaped
string bodies. -/
def scanSuffix (prev : Char) : List Char → Nat
  | [] => 0
  | c :: cs => if c = '"' ∧ prev ≠ '\\' then 0 else 1 + scanSuffix c cs

/-- `Fon::parse_string` (fon.hpp:527-572): requires a leading quote, scans
for the closing quote, returns the content verbatim when it holds no
backslash and the unescaped content otherwise, together with the number of
characters consumed (one past the closing quote, plus a following comma). -/
def parse_string (data : List Char) : Except String (List Char × Nat) :=
  if data.getD 0 (Char.ofNat 0) ≠ '"' then .error "String must start with quote"
  else
    let q := quoteScan data 1 data.length
    let content := (data.drop 1).take (q - 1)
    let res := if content.contains '\\' then unescapeList content else content
    let c0 := q + 1
    let consumed := if c0 < data.length ∧ data.getD c0 (Char.ofNat 0) = ',' then c0 + 1 else c0
    .ok (res, consumed)

/-- The maximal decimal-digit run with its value, as consumed by
`std::from_chars` on integer types (fon.hpp:488): accumulated value and
count of digits. -/
def takeDigitsAcc (v k : Nat) : List Char → Nat × Nat
  | [] => (v, k)
  | c :: rest =>
    if 48 ≤ c.toNat ∧ c.toNat ≤ 57 then
      takeDigitsAcc (v * 10 + (c.toNat - 48)) (k + 1) rest
    else (v, k)

/-- `Fon::parse_number<T>` for an unsigned integer type with maximum `maxV`
(fon.hpp:487-493): `std::from_chars` accepts no sign, requires at least one
digit, and reports out-of-range values as an error; the source throws on any
error code. -/
def parse_number_nat (maxV : Nat) (data : List Char) : Except String (Nat × Nat) :=
  let vk := takeDigitsAcc 0 0 data
  if vk.2 = 0 then .error "Failed to parse number"
  else if maxV < vk.1 then .error "Failed to parse number"
  else .ok (vk.1, vk.2)

/-- `Fon::parse_number<T>` for a signed integer type with range
`[minV, maxV]` (fon.hpp:487-493): `std::from_chars` accepts an optional
leading minus sign. -/
def parse_number_int (minV maxV : Int) (data : List Char) : Except String (Int × Nat) :=
  match data with
  | '-' :: rest =>
    let vk := takeDigitsAcc 0 0 rest
    if vk.2 = 0 then .error "Failed to parse number"
    else if (-(vk.1 : Int)) < minV then .error "Failed to parse number"
    else .ok (-(vk.1 : Int), vk.2 + 1)
  | _ =>
    let vk := takeDigitsAcc 0 0 data
    if vk.2 = 0 then .error "Failed to parse number"
    else if maxV < (vk.1 : Int) then .error "Failed to parse number"
    else .ok ((vk.1 : Int), vk.2)

/-- `Fon::parse_number<T>` for float/double (fon.hpp:472-486), in the token
model: the consumed text is taken up to the next delimiter, which is where
both the `from_chars` path stops on the well-formed literals this
serializer emits and where the `strtof`/`strtod` fallback path stops by
construction (`find_value_end`).  The IEEE value is represented by the token
itself; this path never fails (the fallback returns 0.0 on bad input). -/
def parse_float_tok (data : List Char) : List Char × Nat :=
  let e := find_value_end data
  (data.take e, e)

/-- The element loop of `Fon::parse_array` (fon.hpp:510-517), with fuel for
the position-based while loop.  Exhausted fuel is reported as an error; with
the fuel supplied by `parse_array` it is unreachable for terminating source
executions (the source loop can fail to terminate on degenerate inputs,
which no theorem below exercises). -/
def parseArrayElems (pElem : List Char → Except String (α × Nat)) (content : List Char) :
    Nat → List α → Nat → Except String (List α)
  | pos, acc, 0 =>
    if pos < content.length then .error "array element loop stalled" else .ok acc
  | pos, acc, fuel + 1 =>
    if pos < content.length then
      match pElem (content.drop pos) with
      | .error e => .error e
      | .ok (v, c) =>
        let pos1 := pos + c
        let pos2 := if pos1 < content.length ∧ content.getD pos1 (Char.ofNat 0) = ',' then
          pos1 + 1 else pos1
        parseArrayElems pElem content pos2 (acc ++ [v]) fuel
    else .ok acc

/-- `Fon::parse_array` (fon.hpp:498-523). -/
def parse_array (pElem : List Char → Except String (α × Nat)) (data : List Char) :
    Except String (List α × Nat) :=
  if data.getD 0 (Char.ofNat 0) ≠ '[' then .error "Array must start with bracket"
  else
    match find_closing_bracket data with
    | .error e => .error e
    | .ok close =>
      let content := (data.drop 1).take (close - 1)
      match parseArrayElems pElem content 0 [] (content.length + 1) with
      | .error e => .error e
      | .ok elems =>
        let t0 := close + 1
        let total := if t0 < data.length ∧ data.getD t0 (Char.ofNat 0) = ',' then t0 + 1 else t0
        .ok (elems, total)

/-- The configuration switch `Fon::deserialize_raw_unpack` (fon.hpp:25),
at its default value. -/
def deserialize_raw_unpack : Bool := false

/-- `Fon::parse_value` (fon.hpp:414-464): the array dispatch on a leading
bracket (numeric element types only), the string and raw cases, then the
scalar switch. -/
def parse_value (data : List Char) (type_char : Char) : Except String (FonValue × Nat) :=
  if data = [] then .error "Empty value"
  else if data.getD 0 (Char.ofNat 0) = '[' then
    if type_char = TYPE_BYTE then
      (parse_array (parse_number_nat 255) data).map (fun p => (.vByteArr p.1, p.2))
    else if type_char = TYPE_SHORT then
      (parse_array (parse_number_int (-32768) 32767) data).map (fun p => (.vShortArr p.1, p.2))
    else if type_char = TYPE_INT then
      (parse_array (parse_number_int (-2147483648) 2147483647) data).map
        (fun p => (.vIntArr p.1, p.2))
    else if type_char = TYPE_UINT then
      (parse_array (parse_number_nat 4294967295) data).map (fun p => (.vUIntArr p.1, p.2))
    else if type_char = TYPE_LONG then
      (parse_array (parse_number_int (-9223372036854775808) 9223372036854775807) data).map
        (fun p => (.vLongArr p.1, p.2))
    else if type_char = TYPE_ULONG then
      (parse_array (parse_number_nat 18446744073709551615) data).map
        (fun p => (.vULongArr p.1, p.2))
    else if type_char = TYPE_FLOAT then
      (parse_array (fun d => .ok (parse_float_tok d)) data).map (fun p => (.vFloatArr p.1, p.2))
    else if type_char = TYPE_DOUBLE then
      (parse_array (fun d => .ok (parse_float_tok d)) data).map (fun p => (.vDoubleArr p.1, p.2))
    else .error "Unsupported array type"
  else if type_char = TYPE_STRING then
    (parse_string data).map (fun p => (.vString p.1, p.2))
  else if type_char = TYPE_RAW then
    match parse_string data with
    | .error e => .error e
    | .ok (s, c) =>
      let raw : RawData := { data := [], encoded := s }
      if deserialize_raw_unpack then
        match raw.unpack with
        | .error e => .error e
        | .ok r => .ok (.vRaw r, c)
      else .ok (.vRaw raw, c)
  else
    let e := find_value_end data
    let value_str := data.take e
    let consumed := if e < data.length ∧ data.getD e (Char.ofNat 0) = ',' then e + 1 else e
    if type_char = TYPE_BYTE then
      (parse_number_nat 255 value_str).map (fun p => (.vByte p.1, consumed))
    else if type_char = TYPE_SHORT then
      (parse_number_int (-32768) 32767 value_str).map (fun p => (.vShort p.1, consumed))
    else if type_char = TYPE_INT then
      (parse_number_int (-2147483648) 2147483647 value_str).map
        (fun p => (.vInt p.1, consumed))
    else if type_char = TYPE_UINT then
      (parse_number_nat 4294967295 value_str).map (fun p => (.vUInt p.1, consumed))
    else if type_char = TYPE_LONG then
      (parse_number_int (-9223372036854775808) 9223372036854775807 value_str).map
        (fun p => (.vLong p.1, consumed))
    else if type_char = TYPE_ULONG then
      (parse_number_nat 18446744073709551615 value_str).map (fun p => (.vULong p.1, consumed))
    else if type_char = TYPE_FLOAT then .ok (.vFloatTok value_str, consumed)
    else if type_char = TYPE_DOUBLE then .ok (.vDoubleTok value_str, consumed)
    else if type_char = TYPE_BOOL then .ok (.vBool (value_str.getD 0 '0' ≠ '0'), consumed)
    else .error "Unknown type"

/-- The entry loop of `Fon::deserialize_line` (fon.hpp:380-410), with fuel:
each iteration moves `pos` past the `=` it found, so the line length bounds
the iteration count; exhausted fuel is unreachable with the fuel supplied by
`deserialize_line`.  A line position with no further `=` ends the loop,
returning the entries collected so far. -/
def deserialize_line_go (line : List Char) : Nat → Collection → Nat → Except String Collection
  | _, _, 0 => .error "entry loop fuel exhausted"
  | pos, col, fuel + 1 =>
    if pos < line.length then
      match findFrom line '=' pos with
      | none => .ok col
      | some eq_pos =>
        let key := (line.drop pos).take (eq_pos - pos)
        let p1 := eq_pos + 1
        if line.length ≤ p1 ∨ line.length ≤ p1 + 1 ∨ line.getD (p1 + 1) (Char.ofNat 0) ≠ ':' then
          .error "Invalid format: expected type:value"
        else
          let type_char := line.getD p1 (Char.ofNat 0)
          let p2 := p1 + 2
          match parse_value (line.drop p2) type_char with
          | .error e => .error e
          | .ok (value, consumed) =>
            let col1 := colAdd col key value
            let p3 := p2 + consumed
            let p4 := if p3 < line.length ∧ line.getD p3 (Char.ofNat 0) = ',' then p3 + 1 else p3
            deserialize_line_go line p4 col1 fuel
    else .ok col

/-- `Fon::deserialize_line` (fon.hpp:380-410). -/
def deserialize_line (line : List Char) : Except String Collection :=
  deserialize_line_go line 0 [] (line.length + 1)

-- ==================== PARALLEL ORCHESTRATOR (fon.hpp) ====================

/-- The line splitter of `Fon::deserialize_from_file_parallel`
(fon.hpp:320-334): a line is emitted only when non-empty (`i > start`), LF
and CR both terminate, a CR immediately followed by LF is one terminator,
and a final unterminated tail is emitted when non-empty. -/
def splitLinesGo (cur : List Char) : List Char → List (List Char)
  | [] => if cur = [] then [] else [cur]
  | c :: rest =>
    if c = Char.ofNat 10 ∨ c = Char.ofNat 13 then
      (if cur = [] then [] else [cur]) ++
        (match rest with
          | [] => []
          | c2 :: rest2 =>
            if c = Char.ofNat 13 ∧ c2 = Char.ofNat 10 then splitLinesGo [] rest2
            else splitLinesGo [] (c2 :: rest2))
    else splitLinesGo (cur ++ [c]) rest

/-- Split file content into non-empty lines (fon.hpp:317-334). -/
def splitLines (content : List Char) : List (List Char) :=
  splitLinesGo [] content

/-- The chunk size `(total + max_threads - 1) / max_threads` used by both
fan-outs (fon.hpp:97 and fon.hpp:350). -/
def chunkSize (n t : Nat) : Nat := (n + t - 1) / t

/-- One worker writing its assigned indices into the shared pre-sized buffer
(fon.hpp:104-108): index ranges of distinct workers never overlap. -/
def fillIdxs (g : Nat → α) (idxs : List Nat) (arr : List α) : List α :=
  idxs.foldl (fun a i => a.set i (g i)) arr

/-- The full fan-out over a pre-sized buffer (fon.hpp:96-110): worker `w`
covers indices `[w*cs, min((w+1)*cs, n))` and a worker whose start is past
the end is not launched. -/
def chunkedArena (g : Nat → α) (n t : Nat) (init : List α) : List α :=
  (List.range t).foldl (fun a w =>
    let cs := chunkSize n t
    if n ≤ w * cs then a
    else fillIdxs g (List.range' (w * cs) (min ((w + 1) * cs) n - w * cs)) a) init

/-- One step of the insertion sort used to model `std::sort` by ascending id
(fon.hpp:83-85); dump ids are unique, so any comparison sort produces this
order. -/
def insertById (p : Nat × Collection) : List (Nat × Collection) → List (Nat × Collection)
  | [] => [p]
  | q :: rest => if p.1 < q.1 then p :: q :: rest else q :: insertById p rest

/-- Sort the dump entries ascending by id (fon.hpp:78-85). -/
def sortById (dump : List (Nat × Collection)) : List (Nat × Collection) :=
  dump.foldr insertById []

/-- The serialize fan-out filling `lines` (fon.hpp:87-110): worker `w`
serializes entries `[w*cs, min((w+1)*cs, n))` into its disjoint slice. -/
def serializeLinesChunked (entries : List (Nat × Collection)) (t : Nat) : List (List Char) :=
  chunkedArena (fun i => serialize_to_string (entries.getD i (0, [])).2) entries.length t
    (List.replicate entries.length [])

/-- `Fon::serialize_to_file_parallel` (fon.hpp:73-121) as the byte content
written to the file: entries sorted ascending by id, serialized by the
fan-out, then written in array order with one LF after each line.  A dump is
a finite map id → collection, given here in iteration order. -/
def serialize_to_file_parallel (dump : List (Nat × Collection)) (t : Nat) : List Char :=
  let entries := sortById dump
  (serializeLinesChunked entries t).flatMap (fun l => l ++ [Char.ofNat 10])

/-- One deserialize worker (fon.hpp:357-363): parses each assigned non-empty
line into its disjoint slice of the pre-sized collection buffer; the first
parse failure aborts the worker. -/
def parseWorker (lines : List (List Char)) (cols : List Collection) :
    List Nat → Except String (List Collection)
  | [] => .ok cols
  | i :: rest =>
    if (lines.getD i []).isEmpty then parseWorker lines cols rest
    else
      match deserialize_line (lines.getD i []) with
      | .error e => .error e
      | .ok c => parseWorker lines (cols.set i c) rest

/-- The deserialize fan-out (fon.hpp:349-365): workers cover disjoint
contiguous index ranges; `f.get()` is called in launch order, so the failure
surfaced to the caller is the first launched failing worker's, and later
workers' outcomes are discarded. -/
def deserializeColsChunked (lines : List (List Char)) (t : Nat) :
    Except String (List Collection) :=
  let n := lines.length
  let cs := chunkSize n t
  (List.range t).foldl (fun acc w =>
    acc.bind (fun cols =>
      if n ≤ w * cs then .ok cols
      else parseWorker lines cols (List.range' (w * cs) (min ((w + 1) * cs) n - w * cs))))
    (.ok (List.replicate n []))

/-- Dump assembly after the barrier (fon.hpp:368-375): iterate buffer
positions `0..n-1` and add only the non-empty parsed records, keyed by
position. -/
def buildDump (cols : List Collection) : List (Nat × Collection) :=
  (List.range cols.length).filterMap (fun i =>
    if (cols.getD i []).length > 0 then some (i, cols.getD i []) else none)

/-- `Fon::deserialize_from_file_parallel` (fon.hpp:301-376) on file content
already read into memory. -/
def deserialize_from_file_parallel (content : List Char) (t : Nat) :
    Except String (List (Nat × Collection)) :=
  match deserializeColsChunked (splitLines content) t with
  | .error e => .error e
  | .ok cols => .ok (buildDump cols)

/-- The outcome of one deserialize worker as seen through its future: unit
on success, the first parse failure otherwise (fon.hpp:357-363). -/
def workerOutcome (lines : List (List Char)) : List Nat → Except String Unit
  | [] => .ok ()
  | i :: rest =>
    if (lines.getD i []).isEmpty then workerOutcome lines rest
    else
      match deserialize_line (lines.getD i []) with
      | .error e => .error e
      | .ok _ => workerOutcome lines rest

/-- The outcomes of the launched deserialize workers in launch order
(fon.hpp:352-364): a worker is launched only when its start index is in
range. -/
def fanoutOutcomes (content : List Char) (t : Nat) : List (Except String Unit) :=
  let lines := splitLines content
  let n := lines.length
  let cs := chunkSize n t
  ((List.range t).filter (fun w => w * cs < n)).map (fun w =>
    workerOutcome lines (List.range' (w * cs) (min ((w + 1) * cs) n - w * cs)))

/-- The barrier loop `for (auto& f : futures) f.get();` (fon.hpp:110 and
fon.hpp:365): futures are consumed in launch order and the first exception
propagates, the destructors of the remaining futures discarding their
outcomes. -/
def waitAll (rs : List (Except String Unit)) : Except String Unit :=
  rs.foldl (fun acc r => match acc with | .error e => .error e | .ok _ => r) (.ok ())

/-- Convenience: the character list of a string literal. -/
def s2l (s : String) : List Char := s.data

/-- Whether a line parses without error to a non-empty record — the
condition under which the dump assembly keeps a buffer position
(fon.hpp:370). -/
def parsesNonEmpty (l : List Char) : Bool :=
  match deserialize_line l with
  | .ok c => !c.isEmpty
  | .error _ => false

/-- `RawData::is_packed` (fon_types.hpp:75). -/
def RawData.is_packed (x : RawData) : Bool := !x.encoded.isEmpty

/-- `RawData::is_unpacked` (fon_types.hpp:76). -/
def RawData.is_unpacked (x : RawData) : Bool := !x.data.isEmpty

end FonSpec

deriving instance DecidableEq for Except

namespace FonSpec

-- ==================== THEOREMS ====================

-- ---------- RawData guards (shared helper lemmas) ----------

theorem pack_of_guard (x : RawData) (h : x.encoded ≠ [] ∨ x.data = []) :
    RawData.pack x = x := by
  unfold RawData.pack
  rw [if_pos h]

theorem pack_of_run (x : RawData) (h : ¬(x.encoded ≠ [] ∨ x.data = [])) :
    RawData.pack x = { data := [], encoded := packBytes x.data } := by
  unfold RawData.pack
  rw [if_neg h]

theorem unpackRun_of_guard (x : RawData) (h : x.data ≠ [] ∨ x.encoded = []) :
    RawData.unpackRun x = (x, none) := by
  unfold RawData.unpackRun
  rw [if_pos h]

theorem unpack_of_guard (x : RawData) (h : x.data ≠ [] ∨ x.encoded = []) :
    RawData.unpack x = .ok x := by
  unfold RawData.unpack
  rw [unpackRun_of_guard x h]

theorem unpackRun_ran_shape (x : RawData) (hg : ¬(x.data ≠ [] ∨ x.encoded = [])) :
    (RawData.unpackRun x).2.isSome = true ∨ (RawData.unpackRun x).1.encoded = [] := by
  unfold RawData.unpackRun
  rw [if_neg hg]
  simp only []
  by_cases hm : 49 ≤ (x.encoded.getLastD (Char.ofNat 0)).toNat ∧
      (x.encoded.getLastD (Char.ofNat 0)).toNat ≤ 51
  · simp only [if_pos hm]
    split
    · left
      rfl
    · split
      · left
        rfl
      · right
        rfl
  · simp only [if_neg hm]
    split
    · left
      rfl
    · split
      · left
        rfl
      · right
        rfl

theorem unpack_ok_iff (x y : RawData) :
    RawData.unpack x = .ok y ↔ RawData.unpackRun x = (y, none) := by
  unfold RawData.unpack
  rcases h : RawData.unpackRun x with ⟨s, o⟩
  cases o <;> simp

theorem unpack_ok_cases (x y : RawData) (h : RawData.unpack x = .ok y) :
    y = x ∨ y.encoded = [] := by
  rw [unpack_ok_iff] at h
  by_cases hg : x.data ≠ [] ∨ x.encoded = []
  · rw [unpackRun_of_guard x hg] at h
    exact Or.inl (congrArg Prod.fst h).symm
  · rcases unpackRun_ran_shape x hg with hs | he
    · rw [h] at hs
      simp at hs
    · rw [h] at he
      exact Or.inr he

/-- C8: `pack` is a no-op exactly when the encoded form already holds data
or the byte form is empty; `unpack` is a no-op exactly when the byte form
already holds data or the encoded form is empty; consequently both are
idempotent (`pack (pack x) = pack x`, and a second `unpack` after a first
one returns the same outcome), with no further state change on repeat
calls. -/
theorem C8_pack_unpack_noops_idempotent (x : RawData) :
    (RawData.pack x = x ↔ (x.encoded ≠ [] ∨ x.data = [])) ∧
    (RawData.unpack x = .ok x ↔ (x.data ≠ [] ∨ x.encoded = [])) ∧
    RawData.pack (RawData.pack x) = RawData.pack x ∧
    (RawData.unpack x).bind RawData.unpack = RawData.unpack x := by
  refine ⟨⟨fun h => ?_, pack_of_guard x⟩, ⟨fun h => ?_, unpack_of_guard x⟩, ?_, ?_⟩
  · by_contra hg
    have hx := pack_of_run x hg
    rw [h] at hx
    have : x.data = [] := by rw [hx]
    exact hg (Or.inr this)
  · by_contra hg
    rw [unpack_ok_iff] at h
    rcases unpackRun_ran_shape x hg with hs | he
    · rw [h] at hs
      simp at hs
    · rw [h] at he
      exact hg (Or.inr he)
  · by_cases hg : x.encoded ≠ [] ∨ x.data = []
    · rw [pack_of_guard x hg]
      exact pack_of_guard x hg
    · rw [pack_of_run x hg]
      exact pack_of_guard _ (Or.inr rfl)
  · rcases he : RawData.unpack x with e | y
    · rfl
    · have hy : RawData.unpack y = .ok y := by
        rcases unpack_ok_cases x y he with h1 | h2
        · rw [h1]
          rw [h1] at he
          exact he
        · exact unpack_of_guard y (Or.inr h2)
      simpa [Except.bind] using hy

-- ---------- Codec round-trip lemmas (for C2) ----------

theorem char_ofNat_toNat_small : ∀ k, k < 55 → (Char.ofNat k).toNat = k := by
  decide

theorem z85Dec_z85Char : ∀ d, d < 85 → z85Dec (z85Char d) = .ok d := by
  decide

theorem encodeWord_eq (v : Nat) : encodeWord v =
    [z85Char (v / 52200625), z85Char (v / 614125 % 85), z85Char (v / 7225 % 85),
     z85Char (v / 85 % 85), z85Char (v % 85)] := by
  unfold encodeWord
  norm_num [Nat.div_div_eq_div_mul]

theorem encodeWord_length (v : Nat) : (encodeWord v).length = 5 := by
  rw [encodeWord_eq]
  rfl

theorem flatMap_encodeWord_length (ws : List Nat) :
    (ws.flatMap encodeWord).length = 5 * ws.length := by
  induction ws with
  | nil => rfl
  | cons w t ih =>
    simp only [List.flatMap_cons, List.length_append, ih, encodeWord_length, List.length_cons]
    ring

theorem horner_div_step (v a : Nat) : v / (a * 85) * 85 + v / a % 85 = v / a := by
  have h := Nat.div_add_mod (v / a) 85
  rw [Nat.div_div_eq_div_mul] at h
  omega

theorem decodeGroup_encodeWord (pre tail : List Char) (v : Nat) (hv : v < 4294967296) :
    decodeGroup (pre ++ (encodeWord v ++ tail)) pre.length = .ok v := by
  have hdiv : v / 52200625 < 85 := by
    rw [Nat.div_lt_iff_lt_mul (by norm_num)]
    omega
  have hget : ∀ j d, (pre ++ (encodeWord v ++ tail)).getD (pre.length + j) d =
      (encodeWord v ++ tail).getD j d := by
    intro j d
    rw [List.getD_append_right _ _ _ _ (Nat.le_add_right _ _), Nat.add_sub_cancel_left]
  unfold decodeGroup
  rw [hget 0, hget 1, hget 2, hget 3, hget 4, encodeWord_eq]
  simp only [List.cons_append, List.getD_cons_zero, List.getD_cons_succ]
  rw [z85Dec_z85Char _ hdiv, z85Dec_z85Char _ (Nat.mod_lt _ (by norm_num)),
    z85Dec_z85Char _ (Nat.mod_lt _ (by norm_num)), z85Dec_z85Char _ (Nat.mod_lt _ (by norm_num)),
    z85Dec_z85Char _ (Nat.mod_lt _ (by norm_num))]
  have h1 : v / 52200625 * 85 + v / 614125 % 85 = v / 614125 := by
    have := horner_div_step v 614125
    norm_num at this
    exact this
  have h2 : v / 614125 * 85 + v / 7225 % 85 = v / 7225 := by
    have := horner_div_step v 7225
    norm_num at this
    exact this
  have h3 : v / 7225 * 85 + v / 85 % 85 = v / 85 := by
    have := horner_div_step v 85
    norm_num at this
    exact this
  have h4 : v / 85 * 85 + v % 85 = v := by
    have := Nat.div_add_mod v 85
    omega
  have hle : ∀ w : Nat, w ≤ v → w % 4294967296 = w := fun w hw =>
    Nat.mod_eq_of_lt (lt_of_le_of_lt hw hv)
  simp only [bind, Except.bind, pure, Except.pure]
  congr 1
  have e0 : (0 * 85 + v / 52200625) % 4294967296 = v / 52200625 := by
    rw [Nat.zero_mul, Nat.zero_add]
    exact Nat.mod_eq_of_lt (by omega)
  rw [e0]
  have e1 : (v / 52200625 * 85 + v / 614125 % 85) % 4294967296 = v / 614125 := by
    rw [h1]
    exact hle _ (Nat.div_le_self _ _)
  rw [e1]
  have e2 : (v / 614125 * 85 + v / 7225 % 85) % 4294967296 = v / 7225 := by
    rw [h2]
    exact hle _ (Nat.div_le_self _ _)
  rw [e2]
  have e3 : (v / 7225 * 85 + v / 85 % 85) % 4294967296 = v / 85 := by
    rw [h3]
    exact hle _ (Nat.div_le_self _ _)
  rw [e3]
  rw [h4]
  exact Nat.mod_eq_of_lt hv

theorem decodeFrom_groups (outLen : Nat) (ws : List Nat) :
    ∀ (pre tail : List Char) (data : List Nat) (wp fuel : Nat),
      (∀ w ∈ ws, w < 4294967296) → ws.length ≤ fuel →
      decodeFrom (pre ++ (ws.flatMap encodeWord ++ tail)) (pre.length + 5 * ws.length) outLen
        pre.length wp data fuel =
      ((ws.foldl (fun st w => writeWord st outLen w) (data, wp)).1, none) := by
  induction ws with
  | nil =>
    intro pre tail data wp fuel _ _
    cases fuel with
    | zero => rfl
    | succ f =>
      unfold decodeFrom
      rw [if_neg (by simp)]
      rfl
  | cons w rest ih =>
    intro pre tail data wp fuel hws hfuel
    cases fuel with
    | zero => exact absurd hfuel (by simp)
    | succ f =>
      unfold decodeFrom
      rw [if_pos (by simp only [List.length_cons]; omega)]
      have hw : w < 4294967296 := hws w (List.mem_cons_self w rest)
      have harr : pre ++ ((w :: rest).flatMap encodeWord ++ tail) =
          pre ++ (encodeWord w ++ (rest.flatMap encodeWord ++ tail)) := by
        simp [List.flatMap_cons, List.append_assoc]
      rw [harr, decodeGroup_encodeWord pre _ w hw]
      simp only []
      have harr2 : pre ++ (encodeWord w ++ (rest.flatMap encodeWord ++ tail)) =
          (pre ++ encodeWord w) ++ (rest.flatMap encodeWord ++ tail) := by
        simp [List.append_assoc]
      rw [harr2]
      have hlen : pre.length + 5 * (w :: rest).length =
          (pre ++ encodeWord w).length + 5 * rest.length := by
        simp [List.length_append, encodeWord_length, List.length_cons]
        ring
      rw [hlen]
      have hpos : pre.length + 5 = (pre ++ encodeWord w).length := by
        simp [List.length_append, encodeWord_length]
      rw [hpos]
      rw [ih (pre ++ encodeWord w) tail _ _ f
        (fun x hx => hws x (List.mem_cons_of_mem w hx))
        (by simp only [List.length_cons] at hfuel; omega)]
      rfl

theorem set_append_length (l t : List α) (v : α) :
    (l ++ t).set l.length v = l ++ t.set 0 v := by
  rw [List.set_append]
  simp

theorem foldl_writeByte_general (outLen : Nat) (bs : List Nat) :
    ∀ pre : List Nat, pre.length ≤ outLen →
      bs.foldl (fun st b => writeByte st outLen b)
        (pre ++ List.replicate (outLen - pre.length) 0, pre.length) =
      ((pre ++ bs).take outLen ++ List.replicate (outLen - (pre.length + bs.length)) 0,
        min (pre.length + bs.length) outLen) := by
  induction bs with
  | nil =>
    intro pre hpre
    simp only [List.foldl_nil, List.append_nil, List.length_nil, Nat.add_zero]
    rw [List.take_of_length_le hpre, Nat.min_eq_left hpre]
  | cons b rest ih =>
    intro pre hpre
    by_cases hlt : pre.length < outLen
    · have hset : (pre ++ List.replicate (outLen - pre.length) 0).set pre.length b =
          (pre ++ [b]) ++ List.replicate (outLen - (pre.length + 1)) 0 := by
        have hk : outLen - pre.length = (outLen - (pre.length + 1)) + 1 := by omega
        rw [hk, List.replicate_succ, set_append_length, List.set_cons_zero, List.append_assoc,
          List.singleton_append]
      have hstep : writeByte (pre ++ List.replicate (outLen - pre.length) 0, pre.length) outLen b =
          ((pre ++ [b]) ++ List.replicate (outLen - (pre.length + 1)) 0, pre.length + 1) := by
        unfold writeByte
        simp only []
        rw [if_pos hlt, hset]
      simp only [List.foldl_cons]
      rw [hstep]
      have hlen1 : (pre ++ [b]).length = pre.length + 1 := by simp
      have IH := ih (pre ++ [b]) (by rw [hlen1]; omega)
      rw [hlen1] at IH
      rw [IH]
      have hl : pre ++ [b] ++ rest = pre ++ b :: rest := by
        rw [List.append_assoc, List.singleton_append]
      have ha : pre.length + 1 + rest.length = pre.length + (b :: rest).length := by
        simp only [List.length_cons]
        omega
      rw [hl, ha]
    · have heq : pre.length = outLen := by omega
      have hstep : writeByte (pre ++ List.replicate (outLen - pre.length) 0, pre.length) outLen b =
          (pre ++ List.replicate (outLen - pre.length) 0, pre.length) := by
        unfold writeByte
        simp only []
        rw [if_neg hlt]
      simp only [List.foldl_cons]
      rw [hstep]
      rw [ih pre hpre]
      have ht1 : List.take outLen (pre ++ rest) = pre := List.take_left' heq
      have ht2 : List.take outLen (pre ++ b :: rest) = pre := List.take_left' heq
      rw [ht1, ht2]
      have h1 : outLen - (pre.length + rest.length) = 0 := by omega
      have h2 : outLen - (pre.length + (b :: rest).length) = 0 := by
        simp only [List.length_cons]
        omega
      rw [h1, h2]
      have h3 : min (pre.length + rest.length) outLen = outLen := by omega
      have h4 : min (pre.length + (b :: rest).length) outLen = outLen := by
        simp only [List.length_cons]
        omega
      rw [h3, h4]

theorem chunkWords_lt (bs : List Nat) (h : ∀ b ∈ bs, b < 256) :
    ∀ w ∈ chunkWords bs, w < 4294967296 := by
  induction bs using chunkWords.induct with
  | case1 => simp [chunkWords]
  | case2 b0 =>
    intro w hw
    simp only [chunkWords, List.mem_singleton] at hw
    have := h b0 (by simp)
    omega
  | case3 b0 b1 =>
    intro w hw
    simp only [chunkWords, List.mem_singleton] at hw
    have h0 := h b0 (by simp)
    have h1 := h b1 (by simp)
    omega
  | case4 b0 b1 b2 =>
    intro w hw
    simp only [chunkWords, List.mem_singleton] at hw
    have h0 := h b0 (by simp)
    have h1 := h b1 (by simp)
    have h2 := h b2 (by simp)
    omega
  | case5 b0 b1 b2 b3 rest ih =>
    intro w hw
    simp only [chunkWords, List.mem_cons] at hw
    rcases hw with h1 | h2
    · have e0 := h b0 (by simp)
      have e1 := h b1 (by simp)
      have e2 := h b2 (by simp)
      have e3 := h b3 (by simp)
      simp only [wordOfBytes4] at h1
      omega
    · exact ih (fun b hb => h b (by simp [hb])) w h2

theorem chunkWords_length (bs : List Nat) :
    (chunkWords bs).length = (bs.length + 3) / 4 := by
  induction bs using chunkWords.induct with
  | case1 => simp [chunkWords]
  | case2 b0 => simp [chunkWords]
  | case3 b0 b1 => simp [chunkWords]
  | case4 b0 b1 b2 => simp [chunkWords]
  | case5 b0 b1 b2 b3 rest ih =>
    simp only [chunkWords, List.length_cons, ih]
    omega

theorem flatMap_bytesOfWord_chunkWords (bs : List Nat) (h : ∀ b ∈ bs, b < 256) :
    (chunkWords bs).flatMap bytesOfWord = bs ++ List.replicate ((4 - bs.length % 4) % 4) 0 := by
  induction bs using chunkWords.induct with
  | case1 => rfl
  | case2 b0 =>
    have h0 := h b0 (by simp)
    simp only [chunkWords, List.flatMap_cons, List.flatMap_nil, bytesOfWord, List.append_nil]
    have e1 : b0 * 256 * 256 * 256 / (256 * 256 * 256) % 256 = b0 := by omega
    have e2 : b0 * 256 * 256 * 256 / (256 * 256) % 256 = 0 := by omega
    have e3 : b0 * 256 * 256 * 256 / 256 % 256 = 0 := by omega
    have e4 : b0 * 256 * 256 * 256 % 256 = 0 := by omega
    rw [e1, e2, e3, e4]
    rfl
  | case3 b0 b1 =>
    have h0 := h b0 (by simp)
    have h1 := h b1 (by simp)
    simp only [chunkWords, List.flatMap_cons, List.flatMap_nil, bytesOfWord, List.append_nil]
    have e1 : (b0 * 256 + b1) * 256 * 256 / (256 * 256 * 256) % 256 = b0 := by omega
    have e2 : (b0 * 256 + b1) * 256 * 256 / (256 * 256) % 256 = b1 := by omega
    have e3 : (b0 * 256 + b1) * 256 * 256 / 256 % 256 = 0 := by omega
    have e4 : (b0 * 256 + b1) * 256 * 256 % 256 = 0 := by omega
    rw [e1, e2, e3, e4]
    rfl
  | case4 b0 b1 b2 =>
    have h0 := h b0 (by simp)
    have h1 := h b1 (by simp)
    have h2 := h b2 (by simp)
    simp only [chunkWords, List.flatMap_cons, List.flatMap_nil, bytesOfWord, List.append_nil]
    have e1 : ((b0 * 256 + b1) * 256 + b2) * 256 / (256 * 256 * 256) % 256 = b0 := by omega
    have e2 : ((b0 * 256 + b1) * 256 + b2) * 256 / (256 * 256) % 256 = b1 := by omega
    have e3 : ((b0 * 256 + b1) * 256 + b2) * 256 / 256 % 256 = b2 := by omega
    have e4 : ((b0 * 256 + b1) * 256 + b2) * 256 % 256 = 0 := by omega
    rw [e1, e2, e3, e4]
    rfl
  | case5 b0 b1 b2 b3 rest ih =>
    have h0 := h b0 (by simp)
    have h1 := h b1 (by simp)
    have h2 := h b2 (by simp)
    have h3 := h b3 (by simp)
    have IH := ih (fun b hb => h b (by simp [hb]))
    simp only [chunkWords, List.flatMap_cons, bytesOfWord, wordOfBytes4, IH]
    have e1 : (((b0 * 256 + b1) * 256 + b2) * 256 + b3) / (256 * 256 * 256) % 256 = b0 := by
      omega
    have e2 : (((b0 * 256 + b1) * 256 + b2) * 256 + b3) / (256 * 256) % 256 = b1 := by omega
    have e3 : (((b0 * 256 + b1) * 256 + b2) * 256 + b3) / 256 % 256 = b2 := by omega
    have e4 : (((b0 * 256 + b1) * 256 + b2) * 256 + b3) % 256 = b3 := by omega
    rw [e1, e2, e3, e4]
    have hmod : (b0 :: b1 :: b2 :: b3 :: rest).length % 4 = rest.length % 4 := by
      simp only [List.length_cons]
      omega
    rw [hmod]
    rfl

theorem foldl_writeWord_eq_bytes (outLen : Nat) (ws : List Nat) :
    ∀ st : List Nat × Nat,
      ws.foldl (fun s w => writeWord s outLen w) st =
      (ws.flatMap bytesOfWord).foldl (fun s b => writeByte s outLen b) st := by
  induction ws with
  | nil =>
    intro st
    rfl
  | cons w rest ih =>
    intro st
    simp only [List.foldl_cons, List.flatMap_cons, List.foldl_append]
    rw [ih]
    rfl

theorem packed_fold_writes_bytes (bs : List Nat) (hb : ∀ b ∈ bs, b < 256) :
    ((chunkWords bs).foldl (fun st w => writeWord st bs.length w)
      (List.replicate bs.length 0, 0)).1 = bs := by
  rw [foldl_writeWord_eq_bytes, flatMap_bytesOfWord_chunkWords bs hb]
  have h2 := foldl_writeByte_general bs.length
    (bs ++ List.replicate ((4 - bs.length % 4) % 4) 0) [] (by simp)
  simp only [List.nil_append, List.length_nil, Nat.sub_zero, Nat.zero_add] at h2
  rw [h2]
  simp only [List.take_left]
  have hz : bs.length - (bs ++ List.replicate ((4 - bs.length % 4) % 4) 0).length = 0 := by
    simp only [List.length_append]
    omega
  rw [hz]
  simp

theorem unpackRun_packed_padded (bs : List Nat) (hb : ∀ b ∈ bs, b < 256)
    (hr : bs.length % 4 ≠ 0) :
    RawData.unpackRun { data := [], encoded := packBytes bs } =
      ({ data := bs, encoded := [] }, none) := by
  have hklen := chunkWords_length bs
  have hG : ((chunkWords bs).flatMap encodeWord).length = 5 * (chunkWords bs).length :=
    flatMap_encodeWord_length _
  have hpb : packBytes bs =
      (chunkWords bs).flatMap encodeWord ++ [Char.ofNat (48 + (4 - bs.length % 4))] := by
    rw [packBytes, if_neg hr]
  have hk1 : 1 ≤ (chunkWords bs).length := by
    rw [hklen]
    omega
  have htoN : (Char.ofNat (48 + (4 - bs.length % 4))).toNat = 48 + (4 - bs.length % 4) :=
    char_ofNat_toNat_small _ (by omega)
  rw [hpb]
  unfold RawData.unpackRun
  rw [if_neg (by simp)]
  simp only [List.getLastD_concat, htoN]
  have hcond : 49 ≤ 48 + (4 - bs.length % 4) ∧ 48 + (4 - bs.length % 4) ≤ 51 := by omega
  simp only [if_pos hcond]
  have hlen5 : ((chunkWords bs).flatMap encodeWord ++
      [Char.ofNat (48 + (4 - bs.length % 4))]).length - 1 = 5 * (chunkWords bs).length := by
    simp [List.length_append, hG]
  rw [hlen5]
  have hpad : 48 + (4 - bs.length % 4) - 48 = 4 - bs.length % 4 := by omega
  rw [hpad]
  have hdiv5 : 5 * (chunkWords bs).length / 5 = (chunkWords bs).length := by omega
  rw [hdiv5]
  rw [if_neg (show ¬((chunkWords bs).length * 4 < 4 - bs.length % 4) by omega)]
  have houtLen : (chunkWords bs).length * 4 - (4 - bs.length % 4) = bs.length := by
    rw [hklen]
    omega
  rw [houtLen]
  have hdf := decodeFrom_groups bs.length (chunkWords bs) []
    [Char.ofNat (48 + (4 - bs.length % 4))] (List.replicate bs.length 0) 0
    (5 * (chunkWords bs).length) (chunkWords_lt bs hb) (by omega)
  simp only [List.nil_append, List.length_nil, Nat.zero_add] at hdf
  rw [hdf]
  simp only []
  rw [packed_fold_writes_bytes bs hb]

theorem unpackRun_packed_exact (bs : List Nat) (hb : ∀ b ∈ bs, b < 256)
    (hr : bs.length % 4 = 0) (hne : bs ≠ [])
    (hlast : ¬(49 ≤ ((packBytes bs).getLastD (Char.ofNat 0)).toNat ∧
      ((packBytes bs).getLastD (Char.ofNat 0)).toNat ≤ 51)) :
    RawData.unpackRun { data := [], encoded := packBytes bs } =
      ({ data := bs, encoded := [] }, none) := by
  have hklen := chunkWords_length bs
  have hG : ((chunkWords bs).flatMap encodeWord).length = 5 * (chunkWords bs).length :=
    flatMap_encodeWord_length _
  have hpb : packBytes bs = (chunkWords bs).flatMap encodeWord := by
    rw [packBytes, if_pos hr, List.append_nil]
  have hlenpos : 1 ≤ bs.length := by
    rcases bs with _ | ⟨c, cs⟩
    · exact absurd rfl hne
    · simp
  have hk1 : 1 ≤ (chunkWords bs).length := by
    rw [hklen]
    omega
  rw [hpb] at hlast ⊢
  unfold RawData.unpackRun
  have hGne : (chunkWords bs).flatMap encodeWord ≠ [] := by
    apply List.ne_nil_of_length_pos
    rw [hG]
    omega
  rw [if_neg (by simp [hGne])]
  simp only [if_neg hlast]
  rw [hG]
  have hdiv5 : 5 * (chunkWords bs).length / 5 = (chunkWords bs).length := by omega
  rw [hdiv5]
  rw [if_neg (show ¬((chunkWords bs).length * 4 < 0) by omega)]
  rw [Nat.sub_zero]
  have houtLen : (chunkWords bs).length * 4 = bs.length := by
    rw [hklen]
    omega
  rw [houtLen]
  have hdf := decodeFrom_groups bs.length (chunkWords bs) [] [] (List.replicate bs.length 0) 0
    (5 * (chunkWords bs).length) (chunkWords_lt bs hb) (by omega)
  simp only [List.nil_append, List.append_nil, List.length_nil, Nat.zero_add] at hdf
  rw [hdf]
  simp only []
  rw [packed_fold_writes_bytes bs hb]

/-- C2 counterexample: the 4-byte input `[0,0,0,1]` (a multiple of 4, so the
claim asserts no padding marker) packs to the five characters `00001`, whose
last character is the digit `1`; unpack misreads it as a padding marker,
computes `output_len = (4/5)*4 - 1` which wraps around in `size_t`, and the
resize throws, so `unpack (pack bytes))` fails instead of returning the
original bytes, and the final character `'1'` is present although the length
is an exact multiple of 4. -/
theorem C2_counterexample :
    RawData.unpack (RawData.pack { data := [0, 0, 0, 1], encoded := [] }) =
      .error "length_error" ∧
    RawData.unpack (RawData.pack { data := [0, 0, 0, 1], encoded := [] }) ≠
      .ok { data := [0, 0, 0, 1], encoded := [] } ∧
    [0, 0, 0, 1].length % 4 = 0 ∧
    (packBytes [0, 0, 0, 1]).getLast? = some '1' := by
  decide

/-- C2 amended: `unpack (pack bytes)` returns exactly the original bytes for
every byte sequence whose length is NOT a multiple of 4, and for every byte
sequence whose length is a multiple of 4 whose packed text does not happen
to end in one of the digits `1`, `2`, `3`; the trailing padding marker
(ASCII `'0' + padding`, i.e. `'1'`-`'3'`) is appended exactly when the
length is not a multiple of 4 (so a last character outside `'1'`-`'3'`
implies the length was an exact multiple of 4, but a trailing data character
`'1'`-`'3'` of an exact multiple is indistinguishable from a marker and
breaks the round trip). -/
theorem C2_amended_codec_roundtrip (bs : List Nat) (hb : ∀ b ∈ bs, b < 256) :
    ((bs.length % 4 ≠ 0 ∨
        ¬(49 ≤ ((packBytes bs).getLastD (Char.ofNat 0)).toNat ∧
          ((packBytes bs).getLastD (Char.ofNat 0)).toNat ≤ 51)) →
      RawData.unpack (RawData.pack { data := bs, encoded := [] }) =
        .ok { data := bs, encoded := [] }) ∧
    (bs.length % 4 ≠ 0 →
      (packBytes bs).getLast? = some (Char.ofNat (48 + (4 - bs.length % 4))) ∧
      49 ≤ (Char.ofNat (48 + (4 - bs.length % 4))).toNat ∧
      (Char.ofNat (48 + (4 - bs.length % 4))).toNat ≤ 51) := by
  constructor
  · intro hgood
    rcases bs with _ | ⟨c, cs⟩
    · rw [pack_of_guard _ (Or.inr rfl)]
      exact unpack_of_guard _ (Or.inr rfl)
    · rw [pack_of_run _ (by simp)]
      unfold RawData.unpack
      rcases hgood with hg1 | hg2
      · rw [unpackRun_packed_padded (c :: cs) hb hg1]
      · by_cases hr : (c :: cs).length % 4 = 0
        · rw [unpackRun_packed_exact (c :: cs) hb hr (by simp) hg2]
        · rw [unpackRun_packed_padded (c :: cs) hb hr]
  · intro hr
    have htoN : (Char.ofNat (48 + (4 - bs.length % 4))).toNat = 48 + (4 - bs.length % 4) :=
      char_ofNat_toNat_small _ (by omega)
    refine ⟨?_, by omega, by omega⟩
    rw [packBytes, if_neg hr]
    exact List.getLast?_concat _

theorem C2_amended_witness :
    RawData.unpack (RawData.pack { data := [1, 2, 3, 4, 5], encoded := [] }) =
      .ok { data := [1, 2, 3, 4, 5], encoded := [] } ∧
    (packBytes [1, 2, 3, 4, 5]).getLast? = some '3' := by
  have h := C2_amended_codec_roundtrip [1, 2, 3, 4, 5] (by decide)
  refine ⟨h.1 (Or.inl (by decide)), ?_⟩
  have h2 := (h.2 (by decide)).1
  exact h2.trans (by decide)

-- ---------- Quoted-string scan lemmas (for C5 and C4) ----------

theorem quoteScan_stop (data : List Char) (q fuel : Nat) (hlt : q < data.length)
    (hstop : data.getD q (Char.ofNat 0) = '"' ∧ data.getD (q - 1) (Char.ofNat 0) ≠ '\\') :
    quoteScan data q (fuel + 1) = q := by
  unfold quoteScan
  rw [if_pos hlt, if_pos hstop]

theorem quoteScan_step (data : List Char) (q fuel : Nat) (hlt : q < data.length)
    (hstop : ¬(data.getD q (Char.ofNat 0) = '"' ∧ data.getD (q - 1) (Char.ofNat 0) ≠ '\\')) :
    quoteScan data q (fuel + 1) = quoteScan data (q + 1) fuel := by
  conv_lhs => unfold quoteScan
  rw [if_pos hlt, if_neg hstop]

theorem quoteScan_reaches (data : List Char) (q : Nat) (hqlt : q < data.length)
    (hstop : data.getD q (Char.ofNat 0) = '"' ∧ data.getD (q - 1) (Char.ofNat 0) ≠ '\\') :
    ∀ k i fuel, q - i = k → 1 ≤ i → i ≤ q → q - i < fuel →
      (∀ j, i ≤ j → j < q →
        ¬(data.getD j (Char.ofNat 0) = '"' ∧ data.getD (j - 1) (Char.ofNat 0) ≠ '\\')) →
      quoteScan data i fuel = q := by
  intro k
  induction k with
  | zero =>
    intro i fuel hik h1 hle hfuel _
    have hiq : i = q := by omega
    subst hiq
    cases fuel with
    | zero => omega
    | succ f => exact quoteScan_stop data i f hqlt hstop
  | succ k ih =>
    intro i fuel hik h1 hle hfuel hmin
    have hiq : i < q := by omega
    have hilen : i < data.length := by omega
    cases fuel with
    | zero => omega
    | succ f =>
      rw [quoteScan_step data i f hilen (hmin i (Nat.le_refl i) hiq)]
      exact ih (i + 1) f (by omega) (by omega) (by omega) (by omega)
        (fun j hj1 hj2 => hmin j (by omega) hj2)

/-- C5 counterexample: on the input `"\\"` (quote, backslash, backslash,
quote) the closing quote at index 3 is preceded by an even number (two) of
consecutive backslashes, so by the claim it terminates the string and the
content would unescape to a single backslash; the scan instead only tests
the single preceding character, treats the quote as escaped, runs to the end
of the input, and the parse returns the two characters backslash-quote with
five characters consumed. -/
theorem C5_counterexample :
    parse_string ['"', '\\', '\\', '"'] = .ok (['\\', '"'], 5) ∧
    ['"', '\\', '\\', '"'].getD 3 (Char.ofNat 0) = '"' ∧
    ['"', '\\', '\\', '"'].getD 2 (Char.ofNat 0) = '\\' ∧
    ['"', '\\', '\\', '"'].getD 1 (Char.ofNat 0) = '\\' ∧
    ['"', '\\', '\\', '"'].getD 0 (Char.ofNat 0) ≠ '\\' ∧
    (['\\', '"'] : List Char) ≠ ['\\'] := by
  decide

/-- C5 amended: the quoted-string scan ends the content at the first `"`
whose single immediately preceding character is not a backslash (rather
than at the first quote preceded by an even number of consecutive
backslashes): if position `q` holds a quote whose predecessor is not a
backslash and every earlier position fails that test, the scan stops at `q`
and the parse consumes one past it (plus a following comma), unescaping the
content between the quotes. -/
theorem C5_amended_scan_first_unescaped_quote (data : List Char) (q : Nat)
    (h0 : data.getD 0 (Char.ofNat 0) = '"')
    (hq1 : 1 ≤ q) (hqlt : q < data.length)
    (hstop : data.getD q (Char.ofNat 0) = '"' ∧ data.getD (q - 1) (Char.ofNat 0) ≠ '\\')
    (hmin : ∀ j, 1 ≤ j → j < q →
      ¬(data.getD j (Char.ofNat 0) = '"' ∧ data.getD (j - 1) (Char.ofNat 0) ≠ '\\')) :
    quoteScan data 1 data.length = q ∧
    parse_string data = .ok
      (if ((data.drop 1).take (q - 1)).contains '\\'
        then unescapeList ((data.drop 1).take (q - 1))
        else (data.drop 1).take (q - 1),
       if q + 1 < data.length ∧ data.getD (q + 1) (Char.ofNat 0) = ','
        then q + 1 + 1 else q + 1) := by
  have hscan : quoteScan data 1 data.length = q :=
    quoteScan_reaches data q hqlt hstop (q - 1) 1 data.length rfl (Nat.le_refl 1) hq1
      (by omega) (fun j hj1 hj2 => hmin j hj1 hj2)
  refine ⟨hscan, ?_⟩
  unfold parse_string
  rw [if_neg (fun hcon => hcon h0)]
  simp only []
  rw [hscan]

theorem C5_amended_witness :
    quoteScan ['"', 'a', 'b', '"', 'x'] 1 5 = 3 ∧
    parse_string ['"', 'a', 'b', '"', 'x'] = .ok (['a', 'b'], 4) := by
  have h := C5_amended_scan_first_unescaped_quote ['"', 'a', 'b', '"', 'x'] 3
    (by decide) (by decide) (by decide) (by decide)
    (by decide)
  refine ⟨h.1, h.2.trans (by decide)⟩

-- ---------- Escaping round-trip lemmas (for C4) ----------

theorem drop_eq_getD_cons (l : List α) (q : Nat) (d : α) (h : q < l.length) :
    l.drop q = l.getD q d :: l.drop (q + 1) := by
  rw [List.drop_eq_getElem_cons h]
  congr 1
  rw [List.getD_eq_getElem?_getD, List.getElem?_eq_getElem h]
  rfl

theorem quoteScan_eq_scanSuffix (data : List Char) :
    ∀ k q fuel, data.length - q = k → q ≤ data.length → data.length - q < fuel →
      quoteScan data q fuel =
        q + scanSuffix (data.getD (q - 1) (Char.ofNat 0)) (data.drop q) := by
  intro k
  induction k with
  | zero =>
    intro q fuel hk hle hfuel
    have hq : q = data.length := by omega
    cases fuel with
    | zero => omega
    | succ f =>
      unfold quoteScan
      rw [if_neg (by omega)]
      rw [hq, List.drop_length]
      rfl
  | succ k ih =>
    intro q fuel hk hle hfuel
    have hlt : q < data.length := by omega
    cases fuel with
    | zero => omega
    | succ f =>
      rw [drop_eq_getD_cons data q (Char.ofNat 0) hlt]
      by_cases hstop : data.getD q (Char.ofNat 0) = '"' ∧
          data.getD (q - 1) (Char.ofNat 0) ≠ '\\'
      · rw [quoteScan_stop data q f hlt hstop]
        conv_rhs => unfold scanSuffix
        rw [if_pos hstop]
        omega
      · rw [quoteScan_step data q f hlt hstop]
        conv_rhs => unfold scanSuffix
        rw [if_neg hstop]
        rw [ih (q + 1) f (by omega) (by omega) (by omega)]
        have : (q + 1) - 1 = q := by omega
        rw [this]
        omega

/-- The named-control-only hypothesis: every control character of the string
is one of newline, carriage return, tab, backspace, form feed. -/
def NamedCtrlOnly (s : List Char) : Prop :=
  ∀ c ∈ s, c.toNat < 32 → c = Char.ofNat 10 ∨ c = Char.ofNat 13 ∨ c = Char.ofNat 9 ∨
    c = Char.ofNat 8 ∨ c = Char.ofNat 12

theorem scanSuffix_step (p c : Char) (rest : List Char) (h : ¬(c = '"' ∧ p ≠ '\\')) :
    scanSuffix p (c :: rest) = 1 + scanSuffix c rest := by
  conv_lhs => unfold scanSuffix
  rw [if_neg h]

theorem escapeChar_plain (c : Char) (h1 : c ≠ '"') (h2 : c ≠ '\\') (h3 : ¬(c.toNat < 32)) :
    escapeChar c = [c] := by
  unfold escapeChar
  rw [if_neg h1, if_neg h2]
  rw [if_neg (by intro hc; exact h3 (by rw [hc]; decide))]
  rw [if_neg (by intro hc; exact h3 (by rw [hc]; decide))]
  rw [if_neg (by intro hc; exact h3 (by rw [hc]; decide))]
  rw [if_neg (by intro hc; exact h3 (by rw [hc]; decide))]
  rw [if_neg (by intro hc; exact h3 (by rw [hc]; decide))]
  rw [if_neg h3]

theorem escapeChar_ctrl_named (c : Char)
    (h : c = Char.ofNat 10 ∨ c = Char.ofNat 13 ∨ c = Char.ofNat 9 ∨ c = Char.ofNat 8 ∨
      c = Char.ofNat 12) :
    ∃ L : Char, escapeChar c = ['\\', L] ∧ unescChar L = c ∧ L ≠ '"' ∧ L ≠ '\\' := by
  rcases h with h | h | h | h | h <;> subst h
  · exact ⟨'n', by decide, by decide, by decide, by decide⟩
  · exact ⟨'r', by decide, by decide, by decide, by decide⟩
  · exact ⟨'t', by decide, by decide, by decide, by decide⟩
  · exact ⟨'b', by decide, by decide, by decide, by decide⟩
  · exact ⟨'f', by decide, by decide, by decide, by decide⟩

theorem scanSuffix_body (s : List Char) :
    ∀ prev : Char, NamedCtrlOnly s → s.getLast? ≠ some '\\' → (prev = '\\' → s ≠ []) →
      scanSuffix prev (s.flatMap escapeChar ++ ['"']) = (s.flatMap escapeChar).length := by
  induction s with
  | nil =>
    intro prev _ _ h3
    have hp : prev ≠ '\\' := fun hc => (h3 hc) rfl
    simp only [List.flatMap_nil, List.nil_append, List.length_nil]
    conv_lhs => unfold scanSuffix
    rw [if_pos ⟨rfl, hp⟩]
  | cons c rest ih =>
    intro prev hctrl hlast _
    have hctrl' : NamedCtrlOnly rest := fun x hx hc => hctrl x (List.mem_cons_of_mem c hx) hc
    have hlast' : rest.getLast? ≠ some '\\' := by
      rcases rest with _ | ⟨d, ds⟩
      · simp
      · simpa [List.getLast?_cons_cons] using hlast
    have hrestne : c = '\\' → rest ≠ [] := by
      intro hc hr
      subst hc hr
      simp at hlast
    by_cases h1 : c = '"'
    · subst h1
      have hesc : escapeChar '"' = ['\\', '"'] := by decide
      simp only [List.flatMap_cons, hesc, List.cons_append, List.nil_append,
        List.length_append, List.length_cons, List.length_nil]
      rw [scanSuffix_step _ _ _ (fun hcon => absurd hcon.1 (by decide))]
      rw [scanSuffix_step _ _ _ (fun hcon => hcon.2 rfl)]
      rw [ih '"' hctrl' hlast' (fun hcon => absurd hcon (by decide))]
      omega
    · by_cases h2 : c = '\\'
      · subst h2
        have hesc : escapeChar '\\' = ['\\', '\\'] := by decide
        simp only [List.flatMap_cons, hesc, List.cons_append, List.nil_append,
          List.length_append, List.length_cons, List.length_nil]
        rw [scanSuffix_step _ _ _ (fun hcon => absurd hcon.1 (by decide))]
        rw [scanSuffix_step _ _ _ (fun hcon => absurd hcon.1 (by decide))]
        rw [ih '\\' hctrl' hlast' (fun _ => hrestne rfl)]
        omega
      · by_cases h3 : c.toNat < 32
        · obtain ⟨L, hesc, _, hLq, hLb⟩ :=
            escapeChar_ctrl_named c (hctrl c (List.mem_cons_self c rest) h3)
          simp only [List.flatMap_cons, hesc, List.cons_append, List.nil_append,
            List.length_append, List.length_cons, List.length_nil]
          rw [scanSuffix_step _ _ _ (fun hcon => absurd hcon.1 (by decide))]
          rw [scanSuffix_step _ _ _ (fun hcon => hLq hcon.1)]
          rw [ih L hctrl' hlast' (fun hcon => absurd hcon hLb)]
          omega
        · have hesc : escapeChar c = [c] := escapeChar_plain c h1 h2 h3
          simp only [List.flatMap_cons, hesc, List.singleton_append, List.cons_append,
            List.nil_append, List.length_cons]
          rw [scanSuffix_step _ _ _ (fun hcon => h1 hcon.1)]
          rw [ih c hctrl' hlast' (fun hcon => absurd hcon h2)]
          omega

theorem unescapeList_pair (c2 : Char) (l : List Char) :
    unescapeList ('\\' :: c2 :: l) = unescChar c2 :: unescapeList l := by
  conv_lhs => unfold unescapeList
  rw [if_pos rfl]

theorem unescapeList_plain (c : Char) (l : List Char) (hc : c ≠ '\\') :
    unescapeList (c :: l) = c :: unescapeList l := by
  conv_lhs => unfold unescapeList
  rw [if_neg hc]

theorem unescapeList_flatMap_escape (s : List Char) (hctrl : NamedCtrlOnly s) :
    unescapeList (s.flatMap escapeChar) = s := by
  induction s with
  | nil => rfl
  | cons c rest ih =>
    have hctrl' : NamedCtrlOnly rest := fun x hx hc => hctrl x (List.mem_cons_of_mem c hx) hc
    have IH := ih hctrl'
    by_cases h1 : c = '"'
    · subst h1
      rw [show (('"' :: rest).flatMap escapeChar) =
        '\\' :: '"' :: rest.flatMap escapeChar from by simp [escapeChar]]
      rw [unescapeList_pair, IH]
      rfl
    · by_cases h2 : c = '\\'
      · subst h2
        rw [show (('\\' :: rest).flatMap escapeChar) =
          '\\' :: '\\' :: rest.flatMap escapeChar from by simp [escapeChar]]
        rw [unescapeList_pair, IH]
        rfl
      · by_cases h3 : c.toNat < 32
        · obtain ⟨L, hesc, hunesc, _, _⟩ :=
            escapeChar_ctrl_named c (hctrl c (List.mem_cons_self c rest) h3)
          rw [List.flatMap_cons, hesc]
          simp only [List.cons_append, List.nil_append]
          rw [unescapeList_pair, IH, hunesc]
        · have hesc : escapeChar c = [c] := escapeChar_plain c h1 h2 h3
          rw [List.flatMap_cons, hesc, List.singleton_append]
          rw [unescapeList_plain c _ h2, IH]

theorem flatMap_escape_no_backslash (s : List Char)
    (h : '\\' ∉ s.flatMap escapeChar) : s.flatMap escapeChar = s := by
  induction s with
  | nil => rfl
  | cons c rest ih =>
    simp only [List.flatMap_cons, List.mem_append] at h
    push_neg at h
    have hq : c ≠ '"' := by
      intro hc
      exact h.1 (by rw [hc]; decide)
    have hb : c ≠ '\\' := by
      intro hc
      exact h.1 (by rw [hc]; decide)
    have hct : ¬(c.toNat < 32) := by
      intro hc
      apply h.1
      unfold escapeChar
      rw [if_neg hq, if_neg hb]
      split_ifs <;> first | exact List.mem_cons_self _ _ | omega
    have hesc : escapeChar c = [c] := escapeChar_plain c hq hb hct
    rw [List.flatMap_cons, hesc, ih h.2, List.singleton_append]

/-- C4 counterexample: the one-byte text value `0x01` (a control byte that is
not one of the seven named escapes) serializes to the documented `\u0001`
escape, but the parser knows no `u` escape: it applies the permissive
unknown-escape policy and returns the five characters `u0001`, not the
original byte. -/
theorem C4_counterexample :
    serialize_string [Char.ofNat 1] = s2l "\"\\u0001\"" ∧
    parse_string (serialize_string [Char.ofNat 1]) = .ok (s2l "u0001", 8) ∧
    s2l "u0001" ≠ [Char.ofNat 1] := by
  decide

/-- C4 amended: serialization emits the documented escapes (two-character
escapes for the seven named characters, `\u00XX` uppercase 4-hex-digit
escapes for other control bytes), and parsing the serialized form returns
the original string for every text value whose control characters are among
the five named control characters and which does not end in a backslash.
(A `\u00XX` escape parses back as the literal text `u00XX`, and a string
ending in a backslash makes the closing-quote scan overshoot, so both are
excluded by the counterexamples.) -/
theorem C4_amended_escape_roundtrip (s : List Char) (hctrl : NamedCtrlOnly s)
    (hlast : s.getLast? ≠ some '\\') :
    parse_string (serialize_string s) = .ok (s, (serialize_string s).length) := by
  have hdata : serialize_string s = '"' :: (s.flatMap escapeChar ++ ['"']) := rfl
  have hlen : ('"' :: (s.flatMap escapeChar ++ ['"'])).length =
      (s.flatMap escapeChar).length + 2 := by
    simp
  have hscan : quoteScan ('"' :: (s.flatMap escapeChar ++ ['"'])) 1
      (('"' :: (s.flatMap escapeChar ++ ['"'])).length) =
      1 + (s.flatMap escapeChar).length := by
    rw [quoteScan_eq_scanSuffix ('"' :: (s.flatMap escapeChar ++ ['"']))
      (('"' :: (s.flatMap escapeChar ++ ['"'])).length - 1) 1
      (('"' :: (s.flatMap escapeChar ++ ['"'])).length) rfl (by rw [hlen]; omega)
      (by rw [hlen]; omega)]
    have h0 : ('"' :: (s.flatMap escapeChar ++ ['"'])).getD 0 (Char.ofNat 0) = '"' := rfl
    have hdrop : ('"' :: (s.flatMap escapeChar ++ ['"'])).drop 1 =
        s.flatMap escapeChar ++ ['"'] := rfl
    rw [h0, hdrop, scanSuffix_body s '"' hctrl hlast (fun hcon => absurd hcon (by decide))]
  rw [hdata]
  unfold parse_string
  rw [if_neg (by simp)]
  simp only []
  rw [hscan]
  have hdrop : ('"' :: (s.flatMap escapeChar ++ ['"'])).drop 1 =
      s.flatMap escapeChar ++ ['"'] := rfl
  rw [hdrop]
  have htk : 1 + (s.flatMap escapeChar).length - 1 = (s.flatMap escapeChar).length := by omega
  rw [htk, List.take_left, hlen]
  have hfin : 1 + (s.flatMap escapeChar).length + 1 = (s.flatMap escapeChar).length + 2 := by
    omega
  by_cases hc : (s.flatMap escapeChar).contains '\\'
  · rw [if_pos hc, unescapeList_flatMap_escape s hctrl]
    rw [if_neg (fun hcon => absurd hcon.1 (by omega))]
    rw [hfin]
  · rw [if_neg hc]
    have hnb : '\\' ∉ s.flatMap escapeChar := by simpa using hc
    rw [if_neg (fun hcon => absurd hcon.1 (by omega))]
    rw [hfin, flatMap_escape_no_backslash s hnb]

theorem C4_amended_witness :
    parse_string (serialize_string
      ['"', '\\', Char.ofNat 10, Char.ofNat 13, Char.ofNat 9, Char.ofNat 8, Char.ofNat 12,
        'z']) =
    .ok (['"', '\\', Char.ofNat 10, Char.ofNat 13, Char.ofNat 9, Char.ofNat 8, Char.ofNat 12,
      'z'], 17) := by
  have h := C4_amended_escape_roundtrip
    ['"', '\\', Char.ofNat 10, Char.ofNat 13, Char.ofNat 9, Char.ofNat 8, Char.ofNat 12, 'z']
    (by unfold NamedCtrlOnly; decide) (by decide)
  exact h.trans (by decide)

-- ---------- Entry-scan lemmas (for C6) ----------

theorem findCharIdx_eq_none (c : Char) (l : List Char) (h : c ∉ l) :
    findCharIdx c l = none := by
  induction l with
  | nil => rfl
  | cons x rest ih =>
    unfold findCharIdx
    rw [if_neg (fun hxc => h (by rw [← hxc]; exact List.mem_cons_self x rest))]
    rw [ih (fun hm => h (List.mem_cons_of_mem x hm))]
    rfl

theorem deserialize_line_go_no_eq (line : List Char) (pos : Nat) (col : Collection) (f : Nat)
    (hno : findFrom line '=' pos = none) :
    deserialize_line_go line pos col (f + 1) = .ok col := by
  unfold deserialize_line_go
  by_cases hp : pos < line.length
  · rw [if_pos hp, hno]
  · rw [if_neg hp]

/-- C6 counterexample: the line `a=i:1,junk` contains a trailing entry with
no `=`, yet `deserialize_line` succeeds and returns the record built from
the well-formed prefix (just `a = int32 1`), instead of failing with a
malformed-entry error as the claim requires. -/
theorem C6_counterexample :
    deserialize_line (s2l "a=i:1,junk") = .ok [(s2l "a", FonValue.vInt 1)] := by
  decide

/-- C6 amended: a missing `=` is not a fatal error: when the rest of the
line holds no `=` the entry loop simply stops, so a line without any `=`
parses to the empty record (and trailing junk after well-formed entries is
silently dropped, per the counterexample).  Only an `=` that is found but
not immediately followed by one tag character and a literal `:` raises the
fatal format error. -/
theorem C6_amended_missing_eq_not_fatal (line : List Char) (hno : '=' ∉ line) :
    deserialize_line line = .ok [] ∧
    deserialize_line (s2l "k=") = .error "Invalid format: expected type:value" ∧
    deserialize_line (s2l "k=i") = .error "Invalid format: expected type:value" ∧
    deserialize_line (s2l "k=ix:1") = .error "Invalid format: expected type:value" := by
  refine ⟨?_, by decide, by decide, by decide⟩
  unfold deserialize_line
  apply deserialize_line_go_no_eq
  unfold findFrom
  rw [List.drop_zero, findCharIdx_eq_none '=' line hno]
  rfl

theorem C6_amended_witness :
    deserialize_line (s2l "hello") = .ok [] ∧
    deserialize_line (s2l "k=") = .error "Invalid format: expected type:value" ∧
    deserialize_line (s2l "k=i") = .error "Invalid format: expected type:value" ∧
    deserialize_line (s2l "k=ix:1") = .error "Invalid format: expected type:value" :=
  C6_amended_missing_eq_not_fatal (s2l "hello") (by decide)

/-- C1: the data model and the serializer support boolean arrays and text
arrays (tags `b` and `s` with a bracketed value), but the parser's array
dispatch in `parse_value` handles only the numeric element tags, so the
serialized form of a record holding a boolean array or a text array throws
`Unsupported array type` instead of parsing back to an equal record: the
round-trip fails on documented variants, contradicting both the spec and
the serializer half of the code. -/
theorem C1_bool_text_array_roundtrip_fails :
    serialize_to_string [(s2l "k", FonValue.vBoolArr [true])] = s2l "k=b:[1]" ∧
    deserialize_line (s2l "k=b:[1]") = .error "Unsupported array type" ∧
    serialize_to_string [(s2l "k", FonValue.vStringArr [s2l "a"])] = s2l "k=s:[\"a\"]" ∧
    deserialize_line (s2l "k=s:[\"a\"]") = .error "Unsupported array type" ∧
    deserialize_line (serialize_to_string [(s2l "k", FonValue.vBoolArr [true])]) =
      .error "Unsupported array type" := by
  decide

-- ---------- Arena fan-out lemmas (for C7 and C3) ----------

theorem fillIdxs_cons (g : Nat → α) (i : Nat) (idxs : List Nat) (arr : List α) :
    fillIdxs g (i :: idxs) arr = fillIdxs g idxs (arr.set i (g i)) := rfl

theorem fillIdxs_range' (g : Nat → α) :
    ∀ (k s : Nat) (suf : List α), k ≤ suf.length →
      fillIdxs g (List.range' s k) ((List.range s).map g ++ suf) =
        (List.range (s + k)).map g ++ suf.drop k := by
  intro k
  induction k with
  | zero =>
    intro s suf _
    simp [fillIdxs]
  | succ k ih =>
    intro s suf h
    rcases suf with _ | ⟨x, xs⟩
    · simp at h
    · rw [List.range'_succ, fillIdxs_cons]
      have hset : ((List.range s).map g ++ x :: xs).set s (g s) =
          (List.range (s + 1)).map g ++ xs := by
        rw [List.set_append]
        rw [if_neg (by simp)]
        simp only [List.length_map, List.length_range, Nat.sub_self, List.set_cons_zero]
        rw [List.range_succ, List.map_append, List.append_assoc]
        rfl
      rw [hset]
      have := ih (s + 1) xs (by simp at h ⊢; omega)
      rw [this]
      have harith : s + 1 + k = s + (k + 1) := by omega
      rw [harith]
      rfl

theorem arena_fold (g : Nat → α) (n cs : Nat) (init : List α) (hinit : init.length = n) :
    ∀ (k w : Nat),
      (List.range' w k).foldl (fun a v =>
        if n ≤ v * cs then a
        else fillIdxs g (List.range' (v * cs) (min ((v + 1) * cs) n - v * cs)) a)
        ((List.range (min (w * cs) n)).map g ++ init.drop (min (w * cs) n)) =
      (List.range (min ((w + k) * cs) n)).map g ++ init.drop (min ((w + k) * cs) n) := by
  intro k
  induction k with
  | zero =>
    intro w
    simp
  | succ k ih =>
    intro w
    rw [List.range'_succ]
    simp only [List.foldl_cons]
    have hmono : ∀ a b : Nat, a ≤ b → a * cs ≤ b * cs := fun a b hab =>
      Nat.mul_le_mul_right cs hab
    by_cases hskip : n ≤ w * cs
    · rw [if_pos hskip]
      have h1 : min (w * cs) n = n := by omega
      have h3 : min ((w + 1) * cs) n = n := by
        have := hmono w (w + 1) (by omega)
        omega
      have h2 : min ((w + (k + 1)) * cs) n = n := by
        have := hmono w (w + (k + 1)) (by omega)
        omega
      have IH := ih (w + 1)
      rw [h3] at IH
      have h4 : min ((w + 1 + k) * cs) n = n := by
        have := hmono w (w + 1 + k) (by omega)
        omega
      rw [h4] at IH
      rw [h1, h2]
      exact IH
    · rw [if_neg hskip]
      have hs : min (w * cs) n = w * cs := by omega
      rw [hs]
      have hk2 : (min ((w + 1) * cs) n - w * cs) ≤ (init.drop (w * cs)).length := by
        simp only [List.length_drop, hinit]
        omega
      rw [fillIdxs_range' g _ _ _ hk2]
      have harith : w * cs + (min ((w + 1) * cs) n - w * cs) = min ((w + 1) * cs) n := by
        have := hmono w (w + 1) (by omega)
        omega
      rw [harith, List.drop_drop]
      have harith2 : w * cs + (min ((w + 1) * cs) n - w * cs) = min ((w + 1) * cs) n := harith
      have hdd : w * cs + (min ((w + 1) * cs) n - w * cs) = min ((w + 1) * cs) n := harith
      rw [show w * cs + (min ((w + 1) * cs) n - w * cs) = min ((w + 1) * cs) n from harith]
      have hmin2 : min (min ((w + 1) * cs) n) n = min ((w + 1) * cs) n := by omega
      have IH := ih (w + 1)
      rw [show min ((w + 1) * cs) n = min ((w + 1) * cs) n from rfl] at IH
      have harith3 : w + 1 + k = w + (k + 1) := by omega
      rw [harith3] at IH
      exact IH

theorem chunkedArena_eq_map (g : Nat → α) (n t : Nat) (init : List α)
    (hinit : init.length = n) (ht : 1 ≤ t) :
    chunkedArena g n t init = (List.range n).map g := by
  unfold chunkedArena
  simp only []
  rw [List.range_eq_range']
  have hdm := Nat.div_add_mod (n + t - 1) t
  have hmlt : (n + t - 1) % t < t := Nat.mod_lt _ (by omega)
  have hge : n ≤ t * chunkSize n t := by
    unfold chunkSize
    omega
  have hfold := arena_fold g n (chunkSize n t) init hinit t 0
  simp only [Nat.zero_mul, Nat.zero_min, List.range_zero, List.map_nil, List.drop_zero,
    List.nil_append, Nat.zero_add] at hfold
  have hminn : min (t * chunkSize n t) n = n := by omega
  rw [hminn] at hfold
  rw [hfold]
  rw [← hinit, List.drop_length, List.append_nil]

/-- C7: serializing a dump to a file is thread-count independent: for any
positive thread counts (1, 2, or whatever the hardware default resolves
to), the byte content written — entries sorted ascending by id, one
serialized line plus LF per record — is identical, because the fan-out
assigns each buffer index to exactly one worker and every index is
covered. -/
theorem C7_serialize_thread_count_independent (dump : List (Nat × Collection))
    (t1 t2 : Nat) (h1 : 1 ≤ t1) (h2 : 1 ≤ t2) :
    serialize_to_file_parallel dump t1 = serialize_to_file_parallel dump t2 := by
  unfold serialize_to_file_parallel serializeLinesChunked
  simp only []
  rw [chunkedArena_eq_map _ _ _ _ (by simp) h1, chunkedArena_eq_map _ _ _ _ (by simp) h2]

theorem C7_witness :
    serialize_to_file_parallel
      [(1, [(s2l "k", FonValue.vInt 7)]), (0, [(s2l "m", FonValue.vBool true)])] 1 =
    serialize_to_file_parallel
      [(1, [(s2l "k", FonValue.vInt 7)]), (0, [(s2l "m", FonValue.vBool true)])] 2 ∧
    serialize_to_file_parallel
      [(1, [(s2l "k", FonValue.vInt 7)]), (0, [(s2l "m", FonValue.vBool true)])] 2 =
      s2l "m=b:1\nk=i:7\n" := by
  refine ⟨C7_serialize_thread_count_independent _ 1 2 (by decide) (by decide), ?_⟩
  decide

-- ---------- Deserialize fan-out lemmas (for C3 and C9) ----------

theorem splitLinesGo_ne_nil_bounded :
    ∀ (N : Nat) (cur content : List Char), content.length ≤ N →
      ∀ l ∈ splitLinesGo cur content, l ≠ [] := by
  intro N
  induction N with
  | zero =>
    intro cur content hlen l hl
    have hc0 : content = [] := by
      rcases content with _ | ⟨c, r⟩
      · rfl
      · simp at hlen
    subst hc0
    by_cases hc : cur = []
    · simp [splitLinesGo, hc] at hl
    · simp only [splitLinesGo, if_neg hc, List.mem_singleton] at hl
      rw [hl]
      exact hc
  | succ N ih =>
    intro cur content hlen l hl
    rcases content with _ | ⟨c, rest⟩
    · by_cases hc : cur = []
      · simp [splitLinesGo, hc] at hl
      · simp only [splitLinesGo, if_neg hc, List.mem_singleton] at hl
        rw [hl]
        exact hc
    · unfold splitLinesGo at hl
      by_cases hnl : c = Char.ofNat 10 ∨ c = Char.ofNat 13
      · rw [if_pos hnl] at hl
        rw [List.mem_append] at hl
        rcases hl with h | h
        · by_cases hc : cur = []
          · simp [hc] at h
          · rw [if_neg hc, List.mem_singleton] at h
            rw [h]
            exact hc
        · rcases rest with _ | ⟨c2, rest2⟩
          · simp at h
          · simp only [] at h
            by_cases hcr : c = Char.ofNat 13 ∧ c2 = Char.ofNat 10
            · rw [if_pos hcr] at h
              exact ih [] rest2 (by simp at hlen; omega) l h
            · rw [if_neg hcr] at h
              exact ih [] (c2 :: rest2) (by simp at hlen ⊢; omega) l h
      · rw [if_neg hnl] at hl
        exact ih (cur ++ [c]) rest (by simp at hlen; omega) l hl

theorem splitLinesGo_ne_nil (cur content : List Char) :
    ∀ l ∈ splitLinesGo cur content, l ≠ [] :=
  splitLinesGo_ne_nil_bounded content.length cur content (Nat.le_refl _)

theorem splitLines_getD_ne_nil (content : List Char) (i : Nat)
    (hi : i < (splitLines content).length) :
    (splitLines content).getD i [] ≠ [] := by
  rw [List.getD_eq_getElem?_getD, List.getElem?_eq_getElem hi]
  exact splitLinesGo_ne_nil [] content _ (List.getElem_mem hi)

theorem parseWorker_fills (lines : List (List Char)) (f : Nat → Collection) :
    ∀ (idxs : List Nat) (cols : List Collection),
      (∀ i ∈ idxs, lines.getD i [] ≠ [] ∧ deserialize_line (lines.getD i []) = .ok (f i)) →
      parseWorker lines cols idxs = .ok (fillIdxs f idxs cols) := by
  intro idxs
  induction idxs with
  | nil =>
    intro cols _
    rfl
  | cons i rest ih =>
    intro cols h
    have h1 := h i (List.mem_cons_self i rest)
    unfold parseWorker
    rw [if_neg (by simp only [List.isEmpty_iff]; exact h1.1)]
    rw [h1.2]
    rw [fillIdxs_cons]
    exact ih (cols.set i (f i)) (fun j hj => h j (List.mem_cons_of_mem i hj))

theorem foldl_bind_ok {β : Type} (eStep : β → Nat → Except String β) (pStep : β → Nat → β)
    (hstep : ∀ a w, eStep a w = .ok (pStep a w)) :
    ∀ (ws : List Nat) (a : β),
      List.foldl (fun (acc : Except String β) (w : Nat) => acc.bind (fun x => eStep x w))
        (.ok a) ws =
        .ok (List.foldl pStep a ws) := by
  intro ws
  induction ws with
  | nil =>
    intro a
    rfl
  | cons w rest ih =>
    intro a
    simp only [List.foldl_cons, Except.bind]
    rw [hstep a w]
    exact ih (pStep a w)

theorem deserializeColsChunked_ok (lines : List (List Char)) (t : Nat)
    (f : Nat → Collection) (ht : 1 ≤ t)
    (h : ∀ i, i < lines.length →
      lines.getD i [] ≠ [] ∧ deserialize_line (lines.getD i []) = .ok (f i)) :
    deserializeColsChunked lines t = .ok ((List.range lines.length).map f) := by
  unfold deserializeColsChunked
  simp only []
  have hstep : ∀ (a : List Collection) (w : Nat),
      (if lines.length ≤ w * chunkSize lines.length t
        then (.ok a : Except String (List Collection))
        else parseWorker lines a (List.range' (w * chunkSize lines.length t)
          (min ((w + 1) * chunkSize lines.length t) lines.length -
            w * chunkSize lines.length t))) =
      .ok (if lines.length ≤ w * chunkSize lines.length t then a
        else fillIdxs f (List.range' (w * chunkSize lines.length t)
          (min ((w + 1) * chunkSize lines.length t) lines.length -
            w * chunkSize lines.length t)) a) := by
    intro a w
    by_cases hskip : lines.length ≤ w * chunkSize lines.length t
    · rw [if_pos hskip, if_pos hskip]
    · rw [if_neg hskip, if_neg hskip]
      apply parseWorker_fills
      intro i hi
      rw [List.mem_range'_1] at hi
      exact h i (by omega)
  have hh := foldl_bind_ok _ _ hstep (List.range t) (List.replicate lines.length [])
  exact hh.trans (congrArg Except.ok
    (chunkedArena_eq_map f lines.length t (List.replicate lines.length []) (by simp) ht))

theorem filterMap_eq_map_of_forall (l : List α) (h : α → Option β) (g : α → β)
    (hl : ∀ a ∈ l, h a = some (g a)) : l.filterMap h = l.map g := by
  induction l with
  | nil => rfl
  | cons x rest ih =>
    rw [List.filterMap_cons, hl x (List.mem_cons_self x rest), List.map_cons,
      ih (fun a ha => hl a (List.mem_cons_of_mem x ha))]

/-- C3: loading a file whose (non-empty) lines each parse to a non-empty
record yields a dump whose ids are exactly `0..K-1`, where `K` is the number
of lines produced by the splitter, each record stored under its zero-based
line index — independent of any ids the dump held before it was saved
(none are read from the wire). -/
theorem C3_dense_positional_ids (content : List Char) (t : Nat) (ht : 1 ≤ t)
    (hgood : ∀ i, i < (splitLines content).length →
      parsesNonEmpty ((splitLines content).getD i []) = true) :
    ∃ dump, deserialize_from_file_parallel content t = .ok dump ∧
      dump.map Prod.fst = List.range (splitLines content).length ∧
      ∀ p ∈ dump, deserialize_line ((splitLines content).getD p.1 []) = .ok p.2 ∧
        p.2 ≠ [] := by
  have hfprop : ∀ i, i < (splitLines content).length →
      deserialize_line ((splitLines content).getD i []) =
        .ok ((deserialize_line ((splitLines content).getD i [])).toOption.getD []) ∧
      (deserialize_line ((splitLines content).getD i [])).toOption.getD [] ≠ [] := by
    intro i hi
    have hg := hgood i hi
    unfold parsesNonEmpty at hg
    rcases hde : deserialize_line ((splitLines content).getD i []) with e | c
    · rw [hde] at hg
      simp at hg
    · rw [hde] at hg
      simp only [] at hg
      have hcne : c ≠ [] := by
        intro hc
        rw [hc] at hg
        simp at hg
      exact ⟨rfl, hcne⟩
  have hcols := deserializeColsChunked_ok (splitLines content) t
    (fun i => (deserialize_line ((splitLines content).getD i [])).toOption.getD []) ht
    (fun i hi => ⟨splitLines_getD_ne_nil content i hi, (hfprop i hi).1⟩)
  have hgetD : ∀ i, i < (splitLines content).length →
      ((List.range (splitLines content).length).map
        (fun i => (deserialize_line ((splitLines content).getD i [])).toOption.getD [])).getD
        i [] =
      (deserialize_line ((splitLines content).getD i [])).toOption.getD [] := by
    intro i hi
    rw [List.getD_eq_getElem?_getD, List.getElem?_map, List.getElem?_range hi]
    rfl
  refine ⟨(List.range (splitLines content).length).map
    (fun i => (i, (deserialize_line ((splitLines content).getD i [])).toOption.getD [])),
    ?_, ?_, ?_⟩
  · unfold deserialize_from_file_parallel
    rw [hcols]
    simp only []
    congr 1
    unfold buildDump
    rw [List.length_map, List.length_range]
    rw [filterMap_eq_map_of_forall (List.range (splitLines content).length) _
      (fun i => (i, (deserialize_line ((splitLines content).getD i [])).toOption.getD []))
      (by
        intro i hi
        rw [List.mem_range] at hi
        rw [hgetD i hi]
        rw [if_pos (by
          have h2 := (hfprop i hi).2
          rcases hfi : (deserialize_line ((splitLines content).getD i [])).toOption.getD []
            with _ | ⟨c, cs⟩
          · exact absurd hfi h2
          · simp)])]
  · rw [List.map_map]
    rw [show (Prod.fst ∘ fun i =>
        (i, (deserialize_line ((splitLines content).getD i [])).toOption.getD [])) =
      id from rfl]
    exact List.map_id _
  · intro p hp
    rw [List.mem_map] at hp
    obtain ⟨i, hi, hpe⟩ := hp
    rw [List.mem_range] at hi
    rw [← hpe]
    exact ⟨(hfprop i hi).1, (hfprop i hi).2⟩

theorem C3_witness :
    (∃ dump, deserialize_from_file_parallel (s2l "a=i:1\nb=i:2\r\nc=b:1") 2 = .ok dump ∧
      dump.map Prod.fst = List.range (splitLines (s2l "a=i:1\nb=i:2\r\nc=b:1")).length ∧
      ∀ p ∈ dump, deserialize_line ((splitLines (s2l "a=i:1\nb=i:2\r\nc=b:1")).getD p.1 []) =
        .ok p.2 ∧ p.2 ≠ []) ∧
    deserialize_from_file_parallel (s2l "a=i:1\nb=i:2\r\nc=b:1") 2 =
      .ok [(0, [(s2l "a", FonValue.vInt 1)]), (1, [(s2l "b", FonValue.vInt 2)]),
        (2, [(s2l "c", FonValue.vBool true)])] := by
  refine ⟨C3_dense_positional_ids (s2l "a=i:1\nb=i:2\r\nc=b:1") 2 (by decide) (by decide), ?_⟩
  decide

-- ---------- Launch-order error propagation (for C9) ----------

theorem waitAll_error_absorb (l : List (Except String Unit)) (e : String) :
    List.foldl (fun (acc r : Except String Unit) =>
        match acc with | .error e => .error e | .ok _ => r)
      (.error e) l = .error e := by
  induction l with
  | nil => rfl
  | cons r rest ih => exact ih

theorem waitAll_first_error (rs : List (Except String Unit)) :
    ∀ (i : Nat) (e : String), rs.getD i (.ok ()) = .error e →
      (∀ j, j < i → rs.getD j (.ok ()) = .ok ()) →
      waitAll rs = .error e := by
  induction rs with
  | nil =>
    intro i e hi _
    simp [List.getD] at hi
  | cons r rest ih =>
    intro i e hi hprev
    cases i with
    | zero =>
      have hr : r = .error e := hi
      unfold waitAll
      simp only [List.foldl_cons]
      rw [hr]
      exact waitAll_error_absorb rest e
    | succ i' =>
      have hr : r = .ok () := hprev 0 (by omega)
      unfold waitAll
      simp only [List.foldl_cons]
      rw [hr]
      exact ih i' e hi (fun j hj => hprev (j + 1) (by omega))

/-- C9: in the deserialize fan-out, the caller consumes the futures in
launch order, so the failure surfaced is the first launched failing
worker's, and the outcomes of every later worker — including further
failures — are discarded: if worker `i` fails with `e` and all earlier
workers succeed, the whole call reports `e`, whatever the later workers
did.  (Completion timing cannot influence this: the result is a function of
the launch-ordered outcome list alone.) -/
theorem C9_first_launched_failure_surfaces (content : List Char) (t i : Nat) (e : String)
    (hi : (fanoutOutcomes content t).getD i (.ok ()) = .error e)
    (hprev : ∀ j, j < i → (fanoutOutcomes content t).getD j (.ok ()) = .ok ()) :
    waitAll (fanoutOutcomes content t) = .error e :=
  waitAll_first_error (fanoutOutcomes content t) i e hi hprev

theorem C9_witness :
    waitAll (fanoutOutcomes (s2l "a=i:1\nb=q:2\nc=\n") 3) = .error "Unknown type" ∧
    (fanoutOutcomes (s2l "a=i:1\nb=q:2\nc=\n") 3).getD 2 (.ok ()) =
      .error "Invalid format: expected type:value" := by
  refine ⟨C9_first_launched_failure_surfaces (s2l "a=i:1\nb=q:2\nc=\n") 3 1 "Unknown type"
    (by decide) ?_, by decide⟩
  intro j hj
  have : j = 0 := by omega
  rw [this]
  decide

/-- C10 counterexample: a `RawData` constructed from the encoded text
`~~~~~` (an in-alphabet-range but invalid symbol) and then unpacked is left,
at the point the exception escapes, with the byte buffer already resized to
four zero bytes and the encoded text not yet cleared: `is_packed` and
`is_unpacked` are both true, so the claimed invariant fails on the
exceptional path. -/
theorem C10_counterexample :
    (RawData.unpackRun { data := [], encoded := s2l "~~~~~" }).2.isSome = true ∧
    (RawData.unpackRun { data := [], encoded := s2l "~~~~~" }).1.is_packed = true ∧
    (RawData.unpackRun { data := [], encoded := s2l "~~~~~" }).1.is_unpacked = true := by
  decide

/-- C10 amended: the mutual-exclusion invariant (at most one representation
non-empty) holds for every `RawData` reachable from the constructors through
any sequence of pack and unpack calls that return normally; a throwing
`unpack` can leave both representations non-empty. -/
theorem C10_amended_exclusive_preserved (x y : RawData)
    (hx : x.data = [] ∨ x.encoded = []) :
    ((RawData.pack x).data = [] ∨ (RawData.pack x).encoded = []) ∧
    (RawData.unpack x = .ok y → (y.data = [] ∨ y.encoded = [])) := by
  constructor
  · by_cases hg : x.encoded ≠ [] ∨ x.data = []
    · rw [pack_of_guard x hg]
      exact hx
    · rw [pack_of_run x hg]
      exact Or.inl rfl
  · intro h
    rcases unpack_ok_cases x y h with h1 | h2
    · rw [h1]
      exact hx
    · exact Or.inr h2

theorem C10_amended_witness :
    ((({ data := [], encoded := s2l "0rJua1POJ53" } : RawData)).data = [] ∨
      (({ data := [], encoded := s2l "0rJua1POJ53" } : RawData)).encoded = []) ∧
    ((RawData.pack { data := [], encoded := s2l "0rJua1POJ53" }).data = [] ∨
      (RawData.pack { data := [], encoded := s2l "0rJua1POJ53" }).encoded = []) ∧
    ((({ data := [1, 2, 3, 4, 5], encoded := [] } : RawData)).data = [] ∨
      (({ data := [1, 2, 3, 4, 5], encoded := [] } : RawData)).encoded = []) := by
  refine ⟨Or.inl rfl, ?_, Or.inr rfl⟩
  have h := C10_amended_exclusive_preserved
    { data := [], encoded := s2l "0rJua1POJ53" }
    { data := [1, 2, 3, 4, 5], encoded := [] } (Or.inl rfl)
  exact h.1

end FonSpec


